import Mathlib

/-!
# CPU-Scheduler: the scheduling routines of `CPUScheduler/main.cpp`

A shallow embedding of the four simulation routines of `FCFSFrame`
(`SimulateFCFS`, `SimulateRoundRobin`, `SimulatePriorityScheduling`,
`SimulateSJF`) together with the properties of the schedules they compute.

Conventions of the embedding.

* `int` is 32 bits wide.  A value of type `int` is an `Int` in the range
  `IsInt`, and every `int` addition or subtraction of the source is followed by
  `wrapInt`, the two's complement wrap-around the usual builds perform on
  overflow.  Comparisons need no wrap-around.
* `std::vector<Process>` is a `List Process`; a `Process*` into the vector
  `processes` is the index of the element it points to.
* `std::sort` is library code.  The routines take it as a parameter `sort`,
  and the theorems assume only what the C++ standard guarantees of it
  (`StdSortSpec`): the result is a permutation of the range that is sorted
  with respect to the comparator.  Nothing is assumed about the relative
  order of equivalent elements.
* What a routine hands to `drawPanel->SetProcesses` is the value the embedded
  routine returns: each element carries the interval `[startTime, endTime)`.
-/

namespace CPUScheduler

/-! ## Data model -/

/-- The record `struct Process` (main.cpp, lines 7-16). -/
structure Process where
  id : Int
  name : String
  arrivalTime : Int
  burstTime : Int
  priority : Int
  startTime : Int
  endTime : Int
  remainingTime : Int
deriving DecidableEq, Repr

/-- The range of a 32-bit `int`. -/
def IsInt (x : Int) : Prop :=
  -2147483648 ≤ x ∧ x ≤ 2147483647

/-- Membership in the range of `int` can be computed. -/
instance decidableIsInt (x : Int) : Decidable (IsInt x) :=
  inferInstanceAs (Decidable (-2147483648 ≤ x ∧ x ≤ 2147483647))

/-- The value an `int` holds after a computation whose exact result is `x`:
the result reduced modulo 2^32 into the range of `int`. -/
def wrapInt (x : Int) : Int :=
  (x + 2147483648) % 4294967296 - 2147483648

/-- The record `OnAddProcess` builds (main.cpp, lines 205-213) from the values
read as `long`: each is cast to `int`, the id is the size of the vector plus
one, start and end are zero and the remaining time is the burst time. -/
def newProcess (size : Nat) (name : String) (arrivalTime burstTime priority : Int) : Process :=
  { id := wrapInt ((size : Int) + 1), name := name, arrivalTime := wrapInt arrivalTime,
    burstTime := wrapInt burstTime, priority := wrapInt priority, startTime := 0, endTime := 0,
    remainingTime := wrapInt burstTime }

/-! ## The library routine `std::sort` -/

/-- The requirement the C++ standard puts on a comparator handed to `std::sort`:
a strict weak ordering (irreflexive, transitive, with a transitive
incomparability relation). -/
structure StrictWeakOrder (comp : Process → Process → Bool) : Prop where
  irrefl : ∀ a, comp a a = false
  trans : ∀ a b c, comp a b = true → comp b c = true → comp a c = true
  equivTrans : ∀ a b c, comp a b = false → comp b a = false → comp b c = false →
    comp c b = false → comp a c = false ∧ comp c a = false

/-- What the C++ standard guarantees of `std::sort(first, last, comp)`: for a
strict weak ordering `comp` the range afterwards is a permutation of the range
before, and no later element compares less than an earlier one. -/
def StdSortSpec (sort : (Process → Process → Bool) → List Process → List Process) : Prop :=
  ∀ comp, StrictWeakOrder comp → ∀ l,
    (sort comp l).Perm l ∧ (sort comp l).Pairwise (fun a b => comp b a = false)

/-- One conforming `std::sort`: straight insertion, which is what the common
library implementations run on short ranges. -/
def insertionStdSort (comp : Process → Process → Bool) (l : List Process) : List Process :=
  l.insertionSort (fun a b => comp b a = false)

/-! ## The comparators of the three non-preemptive routines -/

/-- The lambda of `SimulateFCFS` (main.cpp, lines 245-247). -/
def compFCFS (a b : Process) : Bool :=
  decide (a.arrivalTime < b.arrivalTime)

/-- The lambda of `SimulatePriorityScheduling` (main.cpp, lines 296-298). -/
def compPriority (a b : Process) : Bool :=
  decide (a.arrivalTime < b.arrivalTime) ||
    (decide (a.arrivalTime = b.arrivalTime) && decide (a.priority > b.priority))

/-- The lambda of `SimulateSJF` (main.cpp, lines 314-316). -/
def compSJF (a b : Process) : Bool :=
  decide (a.arrivalTime < b.arrivalTime) ||
    (decide (a.arrivalTime = b.arrivalTime) && decide (a.burstTime < b.burstTime))

/-! ## The non-preemptive routines -/

/-- The `for (auto& process : processes)` loop shared verbatim by `SimulateFCFS`,
`SimulatePriorityScheduling` and `SimulateSJF` (main.cpp, lines 249-257,
300-308, 318-326); the first argument is `currentTime`. -/
def advanceClock : Int → List Process → List Process
  | _, [] => []
  | currentTime, process :: rest =>
    let currentTime1 :=
      if currentTime < process.arrivalTime then process.arrivalTime else currentTime
    let startTime := currentTime1
    let endTime := wrapInt (startTime + process.burstTime)
    { process with startTime := startTime, endTime := endTime } :: advanceClock endTime rest

/-- The routine `FCFSFrame::SimulateFCFS` (main.cpp, lines 244-260): the new
value of `processes`, which is also what is handed to the chart. -/
def SimulateFCFS (sort : (Process → Process → Bool) → List Process → List Process)
    (processes : List Process) : List Process :=
  advanceClock 0 (sort compFCFS processes)

/-- The routine `FCFSFrame::SimulatePriorityScheduling` (main.cpp, lines 295-311). -/
def SimulatePriorityScheduling (sort : (Process → Process → Bool) → List Process → List Process)
    (processes : List Process) : List Process :=
  advanceClock 0 (sort compPriority processes)

/-- The routine `FCFSFrame::SimulateSJF` (main.cpp, lines 313-329). -/
def SimulateSJF (sort : (Process → Process → Bool) → List Process → List Process)
    (processes : List Process) : List Process :=
  advanceClock 0 (sort compSJF processes)

/-! ## Round Robin -/

/-- One turn of the `while` loop of `SimulateRoundRobin`, kept as a history
variable (it is not a variable of the source): the process the dequeued pointer
refers to, the value assigned to its `startTime`, the value of `currentTime`
after the turn, the amount the turn adds to `currentTime` (the quantum or the
remaining time), and whether the turn took the finishing branch. -/
structure Slice where
  proc : Nat
  start : Int
  stop : Int
  length : Int
  final : Bool
deriving DecidableEq, Repr

/-- The variables of `SimulateRoundRobin` while its loop runs: the member
`processes`, the local `processQueue` (pointers as indices), `currentTime` and
`readyQueue`; `slices` is the history of the turns taken so far. -/
structure RRState where
  processes : List Process
  processQueue : List Nat
  currentTime : Int
  readyQueue : List Process
  slices : List Slice
deriving DecidableEq, Repr

/-- The state before the loop (main.cpp, lines 263-269): every process is
queued in vector order, the clock is zero and `readyQueue` is empty. -/
def rrInit (processes : List Process) : RRState :=
  { processes := processes, processQueue := List.range processes.length, currentTime := 0,
    readyQueue := [], slices := [] }

/-- The body of the `while` loop (main.cpp, lines 271-289) for the pointer `i`
at the front of the queue, `rest` being the queue after `pop`, and `process`
the record it points to. -/
def rrTurn (quantum : Int) (s : RRState) (i : Nat) (rest : List Nat) (process : Process) :
    RRState :=
  let currentTime :=
    if s.currentTime < process.arrivalTime then process.arrivalTime else s.currentTime
  if process.remainingTime > quantum then
    let process1 :=
      { process with startTime := currentTime
                     remainingTime := wrapInt (process.remainingTime - quantum) }
    let currentTime1 := wrapInt (currentTime + quantum)
    { processes := s.processes.set i process1
      processQueue := rest ++ [i]
      currentTime := currentTime1
      readyQueue := s.readyQueue
      slices := s.slices ++ [⟨i, currentTime, currentTime1, quantum, false⟩] }
  else
    let currentTime1 := wrapInt (currentTime + process.remainingTime)
    let process1 :=
      { process with startTime := currentTime, endTime := currentTime1, remainingTime := 0 }
    { processes := s.processes.set i process1
      processQueue := rest
      currentTime := currentTime1
      readyQueue := s.readyQueue ++ [process1]
      slices := s.slices ++ [⟨i, currentTime, currentTime1, process.remainingTime, true⟩] }

/-- One iteration of the `while` loop: `none` when the queue is empty (the loop
is left) or when the front pointer does not point into `processes`. -/
def rrStep (quantum : Int) (s : RRState) : Option RRState :=
  match s.processQueue with
  | [] => none
  | i :: rest =>
    match s.processes[i]? with
    | none => none
    | some process => some (rrTurn quantum s i rest process)

/-- The `while (!processQueue.empty())` loop, run for at most `fuel` iterations:
`some s` when the loop is left in state `s` within that many iterations, `none`
when it is still running after them. -/
def rrLoop (quantum : Int) : Nat → RRState → Option RRState
  | 0, s => if s.processQueue.isEmpty then some s else none
  | fuel + 1, s =>
    if s.processQueue.isEmpty then some s
    else
      match rrStep quantum s with
      | none => none
      | some s1 => rrLoop quantum fuel s1

/-- The routine `FCFSFrame::SimulateRoundRobin` (main.cpp, lines 262-293), its
loop bounded by `fuel` iterations.  In the final state `readyQueue` is what is
handed to the chart and `processes` is the member vector the routine leaves
behind. -/
def SimulateRoundRobin (quantum : Int) (fuel : Nat) (processes : List Process) :
    Option RRState :=
  rrLoop quantum fuel (rrInit processes)

/-- Two runs of `SimulateRoundRobin` in succession, as when Simulate is
pressed twice with Round Robin selected: the second run starts from the member
vector `processes` the first run leaves behind. -/
def SimulateRoundRobinTwice (quantum : Int) (fuel : Nat) (processes : List Process) :
    Option (RRState × RRState) :=
  match SimulateRoundRobin quantum fuel processes with
  | none => none
  | some first =>
    match SimulateRoundRobin quantum fuel first.processes with
    | none => none
    | some second => some (first, second)

/-! ## The GNU implementation of `std::sort`

The routines of libstdc++ 12 (`bits/stl_algo.h`, `bits/stl_heap.h`) behind
`std::sort`, on a vector held as a list; iterators are positions.  This is the
`std::sort` a build of the program with GCC links; it is used to show what the
program does with equal keys, never as an assumption.  Loops whose trip count
is bounded by the length of the range are run on that bound. -/

/-- The call `comp(a, b)` on two iterators. -/
def compAt (comp : Process → Process → Bool) (v : List Process) (a b : Nat) : Bool :=
  match v[a]?, v[b]? with
  | some x, some y => comp x y
  | _, _ => false

/-- The call `std::iter_swap(a, b)`. -/
def iterSwap (v : List Process) (a b : Nat) : List Process :=
  match v[a]?, v[b]? with
  | some x, some y => (v.set a y).set b x
  | _, _ => v

/-- The routine `std::__move_median_to_first(result, a, b, c, comp)`. -/
def moveMedianToFirst (comp : Process → Process → Bool) (v : List Process)
    (result a b c : Nat) : List Process :=
  if compAt comp v a b then
    if compAt comp v b c then iterSwap v result b
    else if compAt comp v a c then iterSwap v result c
    else iterSwap v result a
  else if compAt comp v a c then iterSwap v result a
  else if compAt comp v b c then iterSwap v result c
  else iterSwap v result b

/-- The loop `while (comp(first, pivot)) ++first;` of `__unguarded_partition`. -/
def scanUp (comp : Process → Process → Bool) (v : List Process) (pivot : Nat) :
    Nat → Nat → Nat
  | 0, first => first
  | fuel + 1, first =>
    if compAt comp v first pivot then scanUp comp v pivot fuel (first + 1) else first

/-- The loop `while (comp(pivot, last)) --last;` of `__unguarded_partition`. -/
def scanDown (comp : Process → Process → Bool) (v : List Process) (pivot : Nat) :
    Nat → Nat → Nat
  | 0, last => last
  | fuel + 1, last =>
    if compAt comp v pivot last then scanDown comp v pivot fuel (last - 1) else last

/-- The routine `std::__unguarded_partition(first, last, pivot, comp)`: the
vector afterwards and the returned iterator. -/
def unguardedPartition (comp : Process → Process → Bool) (pivot : Nat) :
    Nat → List Process → Nat → Nat → List Process × Nat
  | 0, v, first, _ => (v, first)
  | fuel + 1, v, first, last =>
    let first1 := scanUp comp v pivot v.length first
    let last1 := scanDown comp v pivot v.length (last - 1)
    if first1 < last1 then
      unguardedPartition comp pivot fuel (iterSwap v first1 last1) (first1 + 1) last1
    else (v, first1)

/-- The routine `std::__unguarded_partition_pivot(first, last, comp)`. -/
def unguardedPartitionPivot (comp : Process → Process → Bool) (v : List Process)
    (first last : Nat) : List Process × Nat :=
  let mid := first + (last - first) / 2
  let v1 := moveMedianToFirst comp v first (first + 1) mid (last - 1)
  unguardedPartition comp first v1.length v1 (first + 1) last

/-- The loop of `std::__unguarded_linear_insert(last, comp)` with `val` taken
out of the vector; it ends with `*last = val`. -/
def unguardedLinearInsertLoop (comp : Process → Process → Bool) (val : Process) :
    Nat → List Process → List Process
  | 0, v => v.set 0 val
  | next + 1, v =>
    match v[next]? with
    | some y =>
      if comp val y then unguardedLinearInsertLoop comp val next (v.set (next + 1) y)
      else v.set (next + 1) val
    | none => v.set (next + 1) val

/-- The routine `std::__unguarded_linear_insert(last, comp)`. -/
def unguardedLinearInsert (comp : Process → Process → Bool) (v : List Process) (last : Nat) :
    List Process :=
  match v[last]? with
  | some val => unguardedLinearInsertLoop comp val last v
  | none => v

/-- The body of the `for` loop of `std::__insertion_sort` for the iterator `i`. -/
def insertionSortBody (comp : Process → Process → Bool) (v : List Process) (first i : Nat) :
    List Process :=
  if compAt comp v i first then
    match v[i]? with
    | some val => v.take first ++ val :: ((v.drop first).take (i - first) ++ v.drop (i + 1))
    | none => v
  else unguardedLinearInsert comp v i

/-- The `for` loop of `std::__insertion_sort`, `count` iterations from `i` on. -/
def insertionSortLoop (comp : Process → Process → Bool) (first : Nat) :
    Nat → Nat → List Process → List Process
  | 0, _, v => v
  | count + 1, i, v =>
    insertionSortLoop comp first count (i + 1) (insertionSortBody comp v first i)

/-- The routine `std::__insertion_sort(first, last, comp)`. -/
def insertionSort (comp : Process → Process → Bool) (v : List Process) (first last : Nat) :
    List Process :=
  if first = last then v else insertionSortLoop comp first (last - (first + 1)) (first + 1) v

/-- The routine `std::__unguarded_insertion_sort(first, last, comp)`, as
`count` iterations from `i` on. -/
def unguardedInsertionSort (comp : Process → Process → Bool) :
    Nat → Nat → List Process → List Process
  | 0, _, v => v
  | count + 1, i, v =>
    unguardedInsertionSort comp count (i + 1) (unguardedLinearInsert comp v i)

/-- The constant `_S_threshold`. -/
def sThreshold : Nat := 16

/-- The routine `std::__final_insertion_sort(first, last, comp)`. -/
def finalInsertionSort (comp : Process → Process → Bool) (v : List Process) (first last : Nat) :
    List Process :=
  if last - first > sThreshold then
    unguardedInsertionSort comp (last - (first + sThreshold)) (first + sThreshold)
      (insertionSort comp v first (first + sThreshold))
  else insertionSort comp v first last

/-- The routine `std::__push_heap(first, holeIndex, topIndex, value, comp)`. -/
def pushHeap (comp : Process → Process → Bool) (first topIndex : Nat) (value : Process) :
    Nat → List Process → Nat → List Process
  | 0, v, holeIndex => v.set (first + holeIndex) value
  | fuel + 1, v, holeIndex =>
    let parent := (holeIndex - 1) / 2
    match v[first + parent]? with
    | some y =>
      if holeIndex > topIndex && comp y value then
        pushHeap comp first topIndex value fuel (v.set (first + holeIndex) y) parent
      else v.set (first + holeIndex) value
    | none => v.set (first + holeIndex) value

/-- The `while` loop of `std::__adjust_heap`: the vector, `holeIndex` and
`secondChild` after it. -/
def adjustHeapLoop (comp : Process → Process → Bool) (first len : Nat) :
    Nat → List Process → Nat → Nat → List Process × Nat × Nat
  | 0, v, holeIndex, secondChild => (v, holeIndex, secondChild)
  | fuel + 1, v, holeIndex, secondChild =>
    if secondChild < (len - 1) / 2 then
      let secondChild1 := 2 * (secondChild + 1)
      let secondChild2 :=
        if compAt comp v (first + secondChild1) (first + (secondChild1 - 1)) then secondChild1 - 1
        else secondChild1
      match v[first + secondChild2]? with
      | some y => adjustHeapLoop comp first len fuel (v.set (first + holeIndex) y)
          secondChild2 secondChild2
      | none => (v, holeIndex, secondChild)
    else (v, holeIndex, secondChild)

/-- The routine `std::__adjust_heap(first, holeIndex, len, value, comp)`; every
call has `len` at least one. -/
def adjustHeap (comp : Process → Process → Bool) (v : List Process) (first holeIndex len : Nat)
    (value : Process) : List Process :=
  match adjustHeapLoop comp first len len v holeIndex holeIndex with
  | (v1, holeIndex1, secondChild1) =>
    if len % 2 = 0 ∧ 2 ≤ len ∧ secondChild1 = (len - 2) / 2 then
      let secondChild2 := 2 * (secondChild1 + 1)
      match v1[first + (secondChild2 - 1)]? with
      | some y => pushHeap comp first holeIndex value len (v1.set (first + holeIndex1) y)
          (secondChild2 - 1)
      | none => pushHeap comp first holeIndex value len v1 holeIndex1
    else pushHeap comp first holeIndex value len v1 holeIndex1

/-- The routine `std::__pop_heap(first, last, result, comp)`. -/
def popHeap (comp : Process → Process → Bool) (v : List Process) (first last result : Nat) :
    List Process :=
  match v[result]?, v[first]? with
  | some value, some top => adjustHeap comp (v.set result top) first 0 (last - first) value
  | _, _ => v

/-- The `while (true)` loop of `std::__make_heap`, from `parent` down to zero. -/
def makeHeapLoop (comp : Process → Process → Bool) (first len : Nat) :
    Nat → List Process → List Process
  | 0, v =>
    match v[first]? with
    | some value => adjustHeap comp v first 0 len value
    | none => v
  | parent + 1, v =>
    match v[first + (parent + 1)]? with
    | some value => makeHeapLoop comp first len parent (adjustHeap comp v first (parent + 1) len value)
    | none => v

/-- The routine `std::__make_heap(first, last, comp)`. -/
def makeHeap (comp : Process → Process → Bool) (v : List Process) (first last : Nat) :
    List Process :=
  if last - first < 2 then v else makeHeapLoop comp first (last - first) ((last - first - 2) / 2) v

/-- The routine `std::__sort_heap(first, last, comp)` on a range of `len`
elements. -/
def sortHeap (comp : Process → Process → Bool) (first : Nat) : Nat → List Process → List Process
  | 0, v => v
  | len + 1, v =>
    if len + 1 > 1 then sortHeap comp first len (popHeap comp v first (first + len) (first + len))
    else v

/-- The call `std::__partial_sort(first, last, last, comp)` of
`__introsort_loop`: with `middle = last` the loop of `__heap_select` is empty. -/
def stdPartialSort (comp : Process → Process → Bool) (v : List Process) (first last : Nat) :
    List Process :=
  sortHeap comp first (last - first) (makeHeap comp v first last)

/-- The routine `std::__introsort_loop(first, last, depth_limit, comp)`. -/
def introsortLoop (comp : Process → Process → Bool) :
    Nat → List Process → Nat → Nat → List Process
  | 0, v, first, last => if last - first > sThreshold then stdPartialSort comp v first last else v
  | depthLimit + 1, v, first, last =>
    if last - first > sThreshold then
      match unguardedPartitionPivot comp v first last with
      | (v1, cut) =>
        introsortLoop comp depthLimit (introsortLoop comp depthLimit v1 cut last) first cut
    else v

/-- The function `std::__lg`: the position of the highest set bit. -/
def lg : Nat → Nat → Nat
  | 0, _ => 0
  | fuel + 1, n => if n ≤ 1 then 0 else lg fuel (n / 2) + 1

/-- The routine `std::sort(first, last, comp)` of libstdc++ on a whole vector. -/
def gnuStdSort (comp : Process → Process → Bool) (v : List Process) : List Process :=
  if v.length = 0 then v
  else
    finalInsertionSort comp (introsortLoop comp (lg v.length v.length * 2) v 0 v.length) 0 v.length

/-! ## Notions used to state the properties -/

/-- The fields of a process that no routine assigns: what the user entered. -/
def Process.descriptor (p : Process) : Int × String × Int × Int × Int :=
  (p.id, p.name, p.arrivalTime, p.burstTime, p.priority)

/-- A list of scheduled processes read as a walk of a clock that starts at
`clock`: each process starts at the later of the clock and its arrival, ends
one burst later, and the clock then stands at that end. -/
def ClockWalk : Int → List Process → Prop
  | _, [] => True
  | clock, p :: rest =>
    p.startTime = max clock p.arrivalTime ∧ p.endTime = p.startTime + p.burstTime ∧
      ClockWalk p.endTime rest

/-- The amounts by which the clock is advanced to reach an arrival time, one
per scheduled process, the clock starting at `clock`. -/
def idleTimes : Int → List Process → List Int
  | _, [] => []
  | clock, p :: rest => (max clock p.arrivalTime - clock) :: idleTimes p.endTime rest

/-- The end time of the last scheduled process; `clock` when there is none. -/
def lastEndFrom (clock : Int) (out : List Process) : Int :=
  (out.getLast?.map Process.endTime).getD clock

/-- A valid input: no negative arrival time, positive burst times, and the
remaining time of every process still equal to its burst time. -/
def ValidInput (ps : List Process) : Prop :=
  ∀ p ∈ ps, 0 ≤ p.arrivalTime ∧ 0 < p.burstTime ∧ p.remainingTime = p.burstTime

/-- Validity of an input can be computed. -/
instance decidableValidInput (ps : List Process) : Decidable (ValidInput ps) :=
  inferInstanceAs (Decidable
    (∀ p ∈ ps, 0 ≤ p.arrivalTime ∧ 0 < p.burstTime ∧ p.remainingTime = p.burstTime))

/-- A number of iterations that suffices for the loop of `SimulateRoundRobin`
with a positive quantum: one per process plus its remaining time. -/
def rrFuel (ps : List Process) : Nat :=
  (ps.map (fun p => p.remainingTime.toNat + 1)).sum

/-- FCFS by input order in the words of the specification: the processes in
the order given, each with start = max(clock, arrivalTime) and end = start +
burstTime, the clock being set to end after each process. -/
def fcfsByInputOrder : Int → List Process → List Process
  | _, [] => []
  | clock, p :: rest =>
    { p with startTime := max clock p.arrivalTime
             endTime := max clock p.arrivalTime + p.burstTime } ::
      fcfsByInputOrder (max clock p.arrivalTime + p.burstTime) rest

/-- Every process runs once, for its whole remaining time, in list order, the
clock being an `int`. -/
def finishInTurn : Int → List Process → List Process
  | _, [] => []
  | clock, p :: rest =>
    { p with startTime := max clock p.arrivalTime
             endTime := wrapInt (max clock p.arrivalTime + p.remainingTime)
             remainingTime := 0 } ::
      finishInTurn (wrapInt (max clock p.arrivalTime + p.remainingTime)) rest

/-- The numeric fields the routines read hold values of type `int`. -/
def IntFields (ps : List Process) : Prop :=
  ∀ p ∈ ps, IsInt p.arrivalTime ∧ IsInt p.burstTime ∧ IsInt p.remainingTime

/-- Whether the fields are of type `int` can be computed. -/
instance decidableIntFields (ps : List Process) : Decidable (IntFields ps) :=
  inferInstanceAs (Decidable
    (∀ p ∈ ps, IsInt p.arrivalTime ∧ IsInt p.burstTime ∧ IsInt p.remainingTime))

/-- No end time of the schedule overflowed: for every scheduled process the
exact sum startTime + burstTime is in the range of `int`. -/
def EndsFit (out : List Process) : Prop :=
  ∀ p ∈ out, IsInt (p.startTime + p.burstTime)

/-- Whether the end times of a schedule fit can be computed. -/
instance decidableEndsFit (out : List Process) : Decidable (EndsFit out) :=
  inferInstanceAs (Decidable (∀ p ∈ out, IsInt (p.startTime + p.burstTime)))

/-- No clock addition of a Round Robin run overflowed: for every turn taken
the exact sum of its start and its length is in the range of `int`. -/
def SlicesFit (s : RRState) : Prop :=
  ∀ sl ∈ s.slices, IsInt (sl.start + sl.length)

/-- Whether the clock additions of a run fit can be computed. -/
instance decidableSlicesFit (s : RRState) : Decidable (SlicesFit s) :=
  inferInstanceAs (Decidable (∀ sl ∈ s.slices, IsInt (sl.start + sl.length)))

/-- Pointers in the queue point into the vector. -/
def QueueInBounds (s : RRState) : Prop :=
  ∀ i ∈ s.processQueue, i < s.processes.length

/-- The turns a queued pointer can still take, bounded by its remaining time. -/
def turnsLeft (l : List Process) (j : Nat) : Nat :=
  ((l[j]?).map (fun p => p.remainingTime.toNat)).getD 0 + 1

/-- The work left in a state: summed over the queued pointers. -/
def workLeft (s : RRState) : Nat :=
  (s.processQueue.map (turnsLeft s.processes)).sum

/-- What holds of every state the loop of `SimulateRoundRobin` reaches when it
is started on the vector `ps`, whatever the quantum. -/
structure RRInv (ps : List Process) (s : RRState) : Prop where
  descr : s.processes.map Process.descriptor = ps.map Process.descriptor
  accounted : ((s.slices.filter (fun sl => sl.final)).map (fun sl => sl.proc)
      ++ s.processQueue).Perm (List.range ps.length)
  finished : ∀ i p, s.processes[i]? = some p → i ∉ s.processQueue → p.remainingTime = 0
  recorded : s.readyQueue.map
      (fun r => (some r.descriptor, r.startTime, r.endTime, r.remainingTime))
    = (s.slices.filter (fun sl => sl.final)).map
      (fun sl => ((ps[sl.proc]?).map Process.descriptor, sl.start, sl.stop, (0 : Int)))
  arrival : ∀ sl ∈ s.slices, ∃ p0, ps[sl.proc]? = some p0 ∧ p0.arrivalTime ≤ sl.start
  arrivalReady : ∀ r ∈ s.readyQueue, r.arrivalTime ≤ r.startTime
  stops : ∀ sl ∈ s.slices, sl.stop = wrapInt (sl.start + sl.length)
  copies : s.readyQueue.map some
    = ((s.slices.filter (fun sl => sl.final)).map (fun sl => sl.proc)).map
      (fun i => s.processes[i]?)

/-- The account of remaining time in the reachable states for a positive
quantum and remaining times of type `int`: what a process had at the start is
what it has left plus the lengths of its turns. -/
structure RRWork (ps : List Process) (s : RRState) : Prop where
  remInt : ∀ (i : Nat) (p : Process), s.processes[i]? = some p → IsInt p.remainingTime
  budget : ∀ i p p0, s.processes[i]? = some p → ps[i]? = some p0 →
    p0.remainingTime = p.remainingTime
      + ((s.slices.filter (fun sl => decide (sl.proc = i))).map (fun sl => sl.length)).sum

/-- Clock facts of the reachable states when no turn has a negative length and
no clock addition overflowed. -/
structure RRClock (s : RRState) : Prop where
  remNonneg : ∀ i ∈ s.processQueue, ∀ p, s.processes[i]? = some p → 0 ≤ p.remainingTime
  slicesOrdered : s.slices.Pairwise (fun a b => a.stop ≤ b.start ∧ a.start ≤ b.start)
  slicesBounded : ∀ sl ∈ s.slices, sl.start ≤ sl.stop ∧ sl.stop ≤ s.currentTime
  readyOrdered :
    s.readyQueue.Pairwise (fun a b => a.endTime ≤ b.startTime ∧ a.startTime ≤ b.startTime)
  readyBounded : ∀ r ∈ s.readyQueue, r.startTime ≤ r.endTime ∧ r.endTime ≤ s.currentTime

/-- Some queued process has a positive remaining time of type `int`. -/
def Stuck (s : RRState) : Prop :=
  ∃ i ∈ s.processQueue, ∃ p, s.processes[i]? = some p ∧ IsInt p.remainingTime ∧
    p.remainingTime > 0

/-! ## Inputs of the scenarios -/

/-- Scenario 1 of the specification: P1(arrival 0, burst 5), P2(arrival 1, burst 3). -/
def staggeredPair : List Process :=
  [newProcess 0 "P1" 0 5 0, newProcess 1 "P2" 1 3 0]

/-- Scenario 3 of the specification: P1(arrival 0, burst 4, priority 1),
P2(arrival 0, burst 2, priority 5). -/
def priorityPair : List Process :=
  [newProcess 0 "P1" 0 4 1, newProcess 1 "P2" 0 2 5]

/-- Scenario 4 of the specification: P1(arrival 0, burst 5), P2(arrival 0, burst 3). -/
def roundRobinPair : List Process :=
  [newProcess 0 "P1" 0 5 0, newProcess 1 "P2" 0 3 0]

/-- One process that arrives at time 3 and needs one unit of time. -/
def lateSingle : List Process :=
  [newProcess 0 "P1" 3 1 0]

/-- Seventeen processes entered one after the other, ids 1 to 17, all arriving
at time 0 with a burst of one unit. -/
def simultaneous : List Process :=
  (List.range 17).map (fun i => newProcess i "P" 0 1 0)

/-- Three processes arriving at time 0 whose bursts add up to more than the
largest `int`: P1(burst 2147483647), P2(burst 1), P3(burst 1). -/
def overflowTriple : List Process :=
  [newProcess 0 "P1" 0 2147483647 0, newProcess 1 "P2" 0 1 0, newProcess 2 "P3" 0 1 0]

/-- Two processes arriving at time 0, each with the largest `int` as burst. -/
def overflowPair : List Process :=
  [newProcess 0 "P1" 0 2147483647 0, newProcess 1 "P2" 0 2147483647 0]

/-- The vector a Round Robin run leaves behind on scenario 4: both remaining
times are zero. -/
def finishedPair : List Process :=
  [{ newProcess 0 "P1" 0 5 0 with startTime := 7, endTime := 8, remainingTime := 0 },
   { newProcess 1 "P2" 0 3 0 with startTime := 6, endTime := 7, remainingTime := 0 }]

/-! ## Comparators and the sorting contract -/

theorem strictWeakOrder_compFCFS : StrictWeakOrder compFCFS := by
  constructor
  · intro a; simp [compFCFS]
  · intro a b c; simp only [compFCFS, decide_eq_true_eq]; omega
  · intro a b c; simp only [compFCFS, decide_eq_false_iff_not]; omega

theorem compPriority_eq_true (a b : Process) : compPriority a b = true ↔
    (a.arrivalTime < b.arrivalTime ∨ (a.arrivalTime = b.arrivalTime ∧ a.priority > b.priority)) := by
  simp [compPriority]

theorem compPriority_eq_false (a b : Process) : compPriority a b = false ↔
    (b.arrivalTime < a.arrivalTime ∨ (a.arrivalTime = b.arrivalTime ∧ a.priority ≤ b.priority)) := by
  rw [← Bool.not_eq_true, compPriority_eq_true]; omega

theorem compSJF_eq_true (a b : Process) : compSJF a b = true ↔
    (a.arrivalTime < b.arrivalTime ∨ (a.arrivalTime = b.arrivalTime ∧ a.burstTime < b.burstTime)) := by
  simp [compSJF]

theorem compSJF_eq_false (a b : Process) : compSJF a b = false ↔
    (b.arrivalTime < a.arrivalTime ∨ (a.arrivalTime = b.arrivalTime ∧ b.burstTime ≤ a.burstTime)) := by
  rw [← Bool.not_eq_true, compSJF_eq_true]; omega

theorem strictWeakOrder_compPriority : StrictWeakOrder compPriority := by
  constructor
  · intro a; rw [compPriority_eq_false]; omega
  · intro a b c; simp only [compPriority_eq_true]; omega
  · intro a b c; simp only [compPriority_eq_false]; omega

theorem strictWeakOrder_compSJF : StrictWeakOrder compSJF := by
  constructor
  · intro a; rw [compSJF_eq_false]; omega
  · intro a b c; simp only [compSJF_eq_true]; omega
  · intro a b c; simp only [compSJF_eq_false]; omega

theorem StrictWeakOrder.asymm {comp : Process → Process → Bool} (h : StrictWeakOrder comp)
    (a b : Process) (hab : comp a b = true) : comp b a = false := by
  by_contra hba
  have := h.trans a b a hab (by simpa using hba)
  rw [h.irrefl a] at this
  exact Bool.false_ne_true this

theorem StrictWeakOrder.negTrans {comp : Process → Process → Bool} (h : StrictWeakOrder comp)
    (a b c : Process) (hab : comp b a = false) (hbc : comp c b = false) : comp c a = false := by
  by_contra hca
  have hca' : comp c a = true := by simpa using hca
  cases hba : comp a b with
  | true =>
    have := h.trans c a b hca' hba
    rw [hbc] at this; exact Bool.false_ne_true this
  | false =>
    cases hcb : comp b c with
    | true =>
      have := h.trans b c a hcb hca'
      rw [hab] at this; exact Bool.false_ne_true this
    | false =>
      have := (h.equivTrans a b c hba hab hcb hbc).2
      rw [hca'] at this; exact Bool.false_ne_true this.symm

theorem stdSortSpec_insertionStdSort : StdSortSpec insertionStdSort := by
  intro comp h l
  refine ⟨List.perm_insertionSort _ l, ?_⟩
  haveI : IsTotal Process (fun a b => comp b a = false) := ⟨fun a b => by
    cases hba : comp b a with
    | false => exact Or.inl rfl
    | true => exact Or.inr (h.asymm b a hba)⟩
  haveI : IsTrans Process (fun a b => comp b a = false) :=
    ⟨fun a b c hab hbc => h.negTrans a b c hab hbc⟩
  exact List.sorted_insertionSort (fun a b => comp b a = false) l

/-! ## The arithmetic of `int` -/

theorem wrapInt_of_isInt {x : Int} (h : IsInt x) : wrapInt x = x := by
  unfold IsInt at h
  unfold wrapInt
  omega

theorem isInt_wrapInt (x : Int) : IsInt (wrapInt x) := by
  unfold IsInt wrapInt
  omega

theorem wrapInt_le_of_nonneg {x : Int} (h : 0 ≤ x) : wrapInt x ≤ x := by
  unfold wrapInt
  omega

theorem max_eq_ite (a b : Int) : (if a < b then b else a) = max a b := by
  split <;> omega

/-! ## The clock loop of the non-preemptive routines -/

theorem advanceClock_length (c : Int) (l : List Process) : (advanceClock c l).length = l.length := by
  induction l generalizing c with
  | nil => rfl
  | cons p rest ih => simp [advanceClock, ih]

theorem advanceClock_map_input (c : Int) (l : List Process) :
    (advanceClock c l).map (fun p => (p.descriptor, p.remainingTime))
      = l.map (fun p => (p.descriptor, p.remainingTime)) := by
  induction l generalizing c with
  | nil => rfl
  | cons p rest ih =>
    show _ :: _ = _ :: _
    congr 1
    exact ih _

theorem advanceClock_map_descriptor (c : Int) (l : List Process) :
    (advanceClock c l).map Process.descriptor = l.map Process.descriptor := by
  induction l generalizing c with
  | nil => rfl
  | cons p rest ih =>
    show _ :: _ = _ :: _
    congr 1
    exact ih _

theorem advanceClock_arrival_le (c : Int) (l : List Process) :
    ∀ p ∈ advanceClock c l, p.arrivalTime ≤ p.startTime := by
  induction l generalizing c with
  | nil => simp [advanceClock]
  | cons q rest ih =>
    intro p hp
    simp only [advanceClock, List.mem_cons, max_eq_ite] at hp
    rcases hp with rfl | hp
    · simp only; omega
    · exact ih _ p hp

theorem advanceClock_pairwise_descriptor
    (R : Int × String × Int × Int × Int → Int × String × Int × Int × Int → Prop)
    (c : Int) (l : List Process) (h : l.Pairwise (fun a b => R a.descriptor b.descriptor)) :
    (advanceClock c l).Pairwise (fun a b => R a.descriptor b.descriptor) := by
  rw [← List.pairwise_map] at h ⊢
  rw [advanceClock_map_descriptor]; exact h

theorem advanceClock_eq_exact (c : Int) (l : List Process) (h : EndsFit (advanceClock c l)) :
    advanceClock c l = fcfsByInputOrder c l := by
  induction l generalizing c with
  | nil => rfl
  | cons p rest ih =>
    simp only [advanceClock, max_eq_ite] at h ⊢
    have hp : IsInt (max c p.arrivalTime + p.burstTime) := h _ (List.mem_cons_self _ _)
    rw [wrapInt_of_isInt hp] at h ⊢
    simp only [fcfsByInputOrder]
    congr 1
    exact ih _ (fun x hx => h x (List.mem_cons_of_mem _ hx))

theorem fcfsByInputOrder_clockWalk (c : Int) (l : List Process) :
    ClockWalk c (fcfsByInputOrder c l) := by
  induction l generalizing c with
  | nil => trivial
  | cons p rest ih =>
    simp only [fcfsByInputOrder, ClockWalk]
    exact ⟨trivial, trivial, ih _⟩

theorem lastEndFrom_cons (c : Int) (p : Process) (rest : List Process) :
    lastEndFrom c (p :: rest) = lastEndFrom p.endTime rest := by
  cases rest with
  | nil => simp [lastEndFrom]
  | cons q rest =>
    unfold lastEndFrom
    rw [List.getLast?_cons_cons]
    cases h : (q :: rest).getLast? with
    | none => simp at h
    | some x => rfl

theorem fcfsByInputOrder_lastEnd (c : Int) (l : List Process) :
    lastEndFrom c (fcfsByInputOrder c l)
      = c + (l.map Process.burstTime).sum + (idleTimes c (fcfsByInputOrder c l)).sum := by
  induction l generalizing c with
  | nil => simp [fcfsByInputOrder, lastEndFrom, idleTimes]
  | cons p rest ih =>
    simp only [fcfsByInputOrder, lastEndFrom_cons, idleTimes, List.map_cons, List.sum_cons, ih]
    omega

theorem idleTimes_nonneg (c : Int) (l : List Process) : ∀ d ∈ idleTimes c l, 0 ≤ d := by
  induction l generalizing c with
  | nil => simp [idleTimes]
  | cons p rest ih =>
    intro d hd
    simp only [idleTimes, List.mem_cons] at hd
    rcases hd with rfl | hd
    · omega
    · exact ih _ d hd

theorem fcfsByInputOrder_start_bounds (c : Int) (l : List Process)
    (hb : ∀ p ∈ l, 0 ≤ p.burstTime) :
    ∀ p ∈ fcfsByInputOrder c l, p.arrivalTime ≤ p.startTime ∧ c ≤ p.startTime := by
  induction l generalizing c with
  | nil => simp [fcfsByInputOrder]
  | cons q rest ih =>
    intro p hp
    simp only [fcfsByInputOrder, List.mem_cons] at hp
    rcases hp with rfl | hp
    · simp only; omega
    · have := ih (max c q.arrivalTime + q.burstTime)
        (fun x hx => hb x (List.mem_cons_of_mem _ hx)) p hp
      have := hb q (List.mem_cons_self _ _)
      omega

theorem fcfsByInputOrder_pairwise (c : Int) (l : List Process)
    (hb : ∀ p ∈ l, 0 ≤ p.burstTime) :
    (fcfsByInputOrder c l).Pairwise
      (fun a b => a.endTime ≤ b.startTime ∧ a.startTime ≤ b.startTime) := by
  induction l generalizing c with
  | nil => simp [fcfsByInputOrder]
  | cons q rest ih =>
    have hq := hb q (List.mem_cons_self _ _)
    have hrest : ∀ x ∈ rest, 0 ≤ x.burstTime := fun x hx => hb x (List.mem_cons_of_mem _ hx)
    simp only [fcfsByInputOrder, List.pairwise_cons]
    refine ⟨?_, ih _ hrest⟩
    intro p hp
    have := (fcfsByInputOrder_start_bounds _ rest hrest p hp).2
    omega

theorem perm_pair {l : List Process} {a b : Process} (h : l.Perm [a, b]) :
    l = [a, b] ∨ l = [b, a] := by
  have hl := h.length_eq
  match l, hl with
  | [x, y], _ =>
    have hx : x ∈ [a, b] := h.subset (by simp)
    have hy : y ∈ [a, b] := h.subset (by simp)
    have ha : a ∈ [x, y] := h.symm.subset (by simp)
    have hb : b ∈ [x, y] := h.symm.subset (by simp)
    simp only [List.mem_cons, List.mem_singleton, List.not_mem_nil, or_false] at hx hy ha hb
    rcases hx with rfl | rfl <;> rcases hy with rfl | rfl
    · left; rcases hb with rfl | rfl <;> rfl
    · left; rfl
    · right; rfl
    · right; rcases ha with rfl | rfl <;> rfl

/-! ## The loop of Round Robin -/

theorem rrLoop_nil (q : Int) (fuel : Nat) (s : RRState) (h : s.processQueue = []) :
    rrLoop q fuel s = some s := by
  cases fuel <;> simp [rrLoop, h]

theorem rrLoop_zero (q : Int) (s : RRState) (h : s.processQueue ≠ []) :
    rrLoop q 0 s = none := by
  simp [rrLoop, h]

theorem rrLoop_succ (q : Int) (fuel : Nat) (s : RRState) (h : s.processQueue ≠ []) :
    rrLoop q (fuel + 1) s = (rrStep q s).bind (rrLoop q fuel) := by
  rw [rrLoop]
  simp only [List.isEmpty_eq_true, h, if_false]
  cases rrStep q s <;> rfl

theorem rrTurn_gt {q : Int} (s : RRState) (i : Nat) (rest : List Nat) {p : Process}
    (h : p.remainingTime > q) :
    rrTurn q s i rest p =
      { processes := s.processes.set i
          (Process.mk p.id p.name p.arrivalTime p.burstTime p.priority
            (max s.currentTime p.arrivalTime) p.endTime (wrapInt (p.remainingTime - q)))
        processQueue := rest ++ [i]
        currentTime := wrapInt (max s.currentTime p.arrivalTime + q)
        readyQueue := s.readyQueue
        slices := s.slices ++ [⟨i, max s.currentTime p.arrivalTime,
          wrapInt (max s.currentTime p.arrivalTime + q), q, false⟩] } := by
  simp only [rrTurn, max_eq_ite, if_pos h]

theorem rrTurn_le {q : Int} (s : RRState) (i : Nat) (rest : List Nat) {p : Process}
    (h : ¬ p.remainingTime > q) :
    rrTurn q s i rest p =
      { processes := s.processes.set i
          (Process.mk p.id p.name p.arrivalTime p.burstTime p.priority
            (max s.currentTime p.arrivalTime)
            (wrapInt (max s.currentTime p.arrivalTime + p.remainingTime)) 0)
        processQueue := rest
        currentTime := wrapInt (max s.currentTime p.arrivalTime + p.remainingTime)
        readyQueue := s.readyQueue ++ [
          Process.mk p.id p.name p.arrivalTime p.burstTime p.priority
            (max s.currentTime p.arrivalTime)
            (wrapInt (max s.currentTime p.arrivalTime + p.remainingTime)) 0]
        slices := s.slices ++ [⟨i, max s.currentTime p.arrivalTime,
          wrapInt (max s.currentTime p.arrivalTime + p.remainingTime), p.remainingTime,
          true⟩] } := by
  simp only [rrTurn, max_eq_ite, if_neg h]

theorem rrStep_eq_some {q : Int} {s s1 : RRState} :
    rrStep q s = some s1 ↔ ∃ i rest p, s.processQueue = i :: rest ∧ s.processes[i]? = some p ∧
      s1 = rrTurn q s i rest p := by
  unfold rrStep
  constructor
  · intro h
    split at h
    · simp at h
    · rename_i i rest hq
      split at h
      · simp at h
      · rename_i p hp
        exact ⟨i, rest, p, hq, hp, by simpa using h.symm⟩
  · rintro ⟨i, rest, p, hq, hp, rfl⟩
    simp [hq, hp]

theorem rrLoop_invariant (q : Int) (P : RRState → Prop)
    (hstep : ∀ s s1, P s → rrStep q s = some s1 → P s1) :
    ∀ (fuel : Nat) (s s1 : RRState), P s → rrLoop q fuel s = some s1 →
      P s1 ∧ s1.processQueue = [] := by
  intro fuel
  induction fuel with
  | zero =>
    intro s s1 hP h
    by_cases hq : s.processQueue = []
    · rw [rrLoop_nil q 0 s hq] at h
      cases h; exact ⟨hP, hq⟩
    · rw [rrLoop_zero q s hq] at h; cases h
  | succ fuel ih =>
    intro s s1 hP h
    by_cases hq : s.processQueue = []
    · rw [rrLoop_nil q _ s hq] at h
      cases h; exact ⟨hP, hq⟩
    · rw [rrLoop_succ q fuel s hq] at h
      cases hs : rrStep q s with
      | none => rw [hs] at h; cases h
      | some s2 =>
        rw [hs] at h
        exact ih s2 s1 (hstep s s2 hP hs) h

theorem rrTurn_length (q : Int) (s : RRState) (i : Nat) (rest : List Nat) (p : Process) :
    (rrTurn q s i rest p).processes.length = s.processes.length := by
  by_cases h : p.remainingTime > q
  · simp [rrTurn_gt s i rest h]
  · simp [rrTurn_le s i rest h]

theorem rrTurn_queue_subset (q : Int) (s : RRState) (i : Nat) (rest : List Nat) (p : Process) :
    ∀ j ∈ (rrTurn q s i rest p).processQueue, j ∈ i :: rest := by
  intro j
  by_cases h : p.remainingTime > q
  · simp only [rrTurn_gt s i rest h, List.mem_append, List.mem_singleton, List.mem_cons]; tauto
  · simp only [rrTurn_le s i rest h, List.mem_cons]; tauto

theorem queueInBounds_step (q : Int) (s s1 : RRState) (h : QueueInBounds s)
    (hs : rrStep q s = some s1) : QueueInBounds s1 := by
  obtain ⟨i, rest, p, hq, hp, rfl⟩ := rrStep_eq_some.mp hs
  intro j hj
  rw [rrTurn_length]
  exact h j (hq ▸ rrTurn_queue_subset q s i rest p j hj)

theorem queueInBounds_init (ps : List Process) : QueueInBounds (rrInit ps) := by
  intro i hi
  simpa [rrInit] using hi

theorem rrStep_isSome (q : Int) (s : RRState) (h : QueueInBounds s) (hq : s.processQueue ≠ []) :
    ∃ s1, rrStep q s = some s1 := by
  match hm : s.processQueue with
  | [] => exact absurd hm hq
  | i :: rest =>
    have hi : i < s.processes.length := h i (by simp [hm])
    exact ⟨rrTurn q s i rest s.processes[i], rrStep_eq_some.mpr
      ⟨i, rest, s.processes[i], hm, List.getElem?_eq_getElem hi, rfl⟩⟩

theorem turnsLeft_set_le (l : List Process) (i : Nat) (p p1 : Process) (hp : l[i]? = some p)
    (h : p1.remainingTime.toNat ≤ p.remainingTime.toNat) (rest : List Nat) :
    (rest.map (turnsLeft (l.set i p1))).sum ≤ (rest.map (turnsLeft l)).sum := by
  have hi : i < l.length := (List.getElem?_eq_some_iff.mp hp).1
  apply List.sum_le_sum
  intro j _
  unfold turnsLeft
  by_cases hji : i = j
  · subst hji
    simp only [List.getElem?_set_self hi, hp, Option.map_some', Option.getD_some]
    omega
  · simp [List.getElem?_set_ne hji]

theorem workLeft_step (q : Int) (hq : 0 < q) (s s1 : RRState) (hs : rrStep q s = some s1) :
    workLeft s1 < workLeft s := by
  obtain ⟨i, rest, p, hqueue, hp, rfl⟩ := rrStep_eq_some.mp hs
  have hi : i < s.processes.length := (List.getElem?_eq_some_iff.mp hp).1
  have hpi : turnsLeft s.processes i = p.remainingTime.toNat + 1 := by
    simp [turnsLeft, hp]
  unfold workLeft
  rw [hqueue, List.map_cons, List.sum_cons, hpi]
  by_cases hgt : p.remainingTime > q
  · rw [rrTurn_gt s i rest hgt]
    simp only [List.map_append, List.sum_append, List.map_cons, List.map_nil, List.sum_cons,
      List.sum_nil]
    have hw := wrapInt_le_of_nonneg (x := p.remainingTime - q) (by omega)
    have h2 := turnsLeft_set_le s.processes i p
      (Process.mk p.id p.name p.arrivalTime p.burstTime p.priority
        (max s.currentTime p.arrivalTime) p.endTime (wrapInt (p.remainingTime - q))) hp
      (by simp only; omega) rest
    have h3 : turnsLeft (s.processes.set i
        (Process.mk p.id p.name p.arrivalTime p.burstTime p.priority
        (max s.currentTime p.arrivalTime) p.endTime (wrapInt (p.remainingTime - q)))) i
        = (wrapInt (p.remainingTime - q)).toNat + 1 := by
      simp [turnsLeft, List.getElem?_set_self hi]
    rw [h3]
    omega
  · rw [rrTurn_le s i rest hgt]
    have h2 := turnsLeft_set_le s.processes i p
      (Process.mk p.id p.name p.arrivalTime p.burstTime p.priority
        (max s.currentTime p.arrivalTime)
        (wrapInt (max s.currentTime p.arrivalTime + p.remainingTime)) 0)
      hp (by simp) rest
    simp only
    omega

theorem rrLoop_terminates (q : Int) (hq : 0 < q) :
    ∀ (fuel : Nat) (s : RRState), QueueInBounds s → workLeft s ≤ fuel →
      ∃ s1, rrLoop q fuel s = some s1 := by
  intro fuel
  induction fuel with
  | zero =>
    intro s _ hw
    have : s.processQueue = [] := by
      match hm : s.processQueue with
      | [] => rfl
      | i :: rest =>
        unfold workLeft at hw
        rw [hm] at hw
        simp only [List.map_cons, List.sum_cons, turnsLeft] at hw
        omega
    exact ⟨s, rrLoop_nil q 0 s this⟩
  | succ fuel ih =>
    intro s hb hw
    by_cases hqe : s.processQueue = []
    · exact ⟨s, rrLoop_nil q _ s hqe⟩
    · obtain ⟨s2, hs2⟩ := rrStep_isSome q s hb hqe
      rw [rrLoop_succ q fuel s hqe, hs2]
      have := workLeft_step q hq s s2 hs2
      exact ih s2 (queueInBounds_step q s s2 hb hs2) (by omega)

theorem map_set_eq {β : Type} (f : Process → β) (l : List Process) (i : Nat) (p p1 : Process)
    (hp : l[i]? = some p) (hf : f p1 = f p) : (l.set i p1).map f = l.map f := by
  apply List.ext_getElem?
  intro j
  rw [List.getElem?_map, List.getElem?_map, List.getElem?_set]
  split
  · rename_i hij
    subst hij
    have hi : i < l.length := (List.getElem?_eq_some_iff.mp hp).1
    simp [hi, hp, hf]
  · rfl

theorem descriptor_lookup {ps l : List Process} (h : l.map Process.descriptor = ps.map Process.descriptor)
    {i : Nat} {p : Process} (hp : l[i]? = some p) :
    ∃ p0, ps[i]? = some p0 ∧ p0.descriptor = p.descriptor := by
  have h1 : (l.map Process.descriptor)[i]? = (ps.map Process.descriptor)[i]? := by rw [h]
  rw [List.getElem?_map, List.getElem?_map, hp] at h1
  cases h0 : ps[i]? with
  | none => rw [h0] at h1; simp at h1
  | some p0 =>
    rw [h0] at h1
    simp only [Option.map_some', Option.some.injEq] at h1
    exact ⟨p0, rfl, h1.symm⟩

theorem rrInv_init (ps : List Process) : RRInv ps (rrInit ps) := by
  constructor
  · rfl
  · simp [rrInit]
  · intro i p hp hi
    have : i < ps.length := (List.getElem?_eq_some_iff.mp hp).1
    simp [rrInit] at hi
    omega
  · rfl
  · simp [rrInit]
  · simp [rrInit]
  · simp [rrInit]
  · rfl

theorem rrInv_step (q : Int) (ps : List Process) (s s1 : RRState) (h : RRInv ps s)
    (hs : rrStep q s = some s1) : RRInv ps s1 := by
  obtain ⟨i, rest, p, hqueue, hp, rfl⟩ := rrStep_eq_some.mp hs
  have hi : i < s.processes.length := (List.getElem?_eq_some_iff.mp hp).1
  obtain ⟨p0, hp0, hd0⟩ := descriptor_lookup h.descr hp
  have harr : p0.arrivalTime = p.arrivalTime := by
    have := congrArg (fun d => d.2.2.1) hd0
    simpa [Process.descriptor] using this
  have hfresh : ∀ j ∈ (s.slices.filter (fun sl => sl.final)).map (fun sl => sl.proc),
      i ≠ j := by
    intro j hj hij
    have hnd : ((s.slices.filter (fun sl => sl.final)).map (fun sl => sl.proc)
        ++ s.processQueue).Nodup := h.accounted.nodup_iff.mpr (List.nodup_range _)
    have := (List.nodup_append.mp hnd).2.2 hj (by rw [hqueue, ← hij]; simp)
    exact this
  have hkeep : ∀ p1 : Process,
      ((s.slices.filter (fun sl => sl.final)).map (fun sl => sl.proc)).map
          (fun j => (s.processes.set i p1)[j]?)
        = ((s.slices.filter (fun sl => sl.final)).map (fun sl => sl.proc)).map
          (fun j => s.processes[j]?) := by
    intro p1
    apply List.map_congr_left
    intro j hj
    exact List.getElem?_set_ne (hfresh j hj)
  by_cases hgt : p.remainingTime > q
  · rw [rrTurn_gt s i rest hgt]
    constructor
    · refine Eq.trans (map_set_eq Process.descriptor _ _ p _ hp ?_) h.descr
      rfl
    · simp only [List.filter_append, List.filter_cons, List.filter_nil, Bool.false_eq_true,
        if_false, List.append_nil]
      refine List.Perm.trans ?_ h.accounted
      rw [hqueue]
      exact List.Perm.append_left _ (List.perm_append_singleton i rest)
    · intro j pj hpj hj
      simp only [List.mem_append, List.mem_singleton, not_or] at hj
      simp only at hpj
      rw [List.getElem?_set_ne (Ne.symm hj.2)] at hpj
      exact h.finished j pj hpj (by rw [hqueue]; simp [hj.1, hj.2])
    · simp only [List.filter_append, List.filter_cons, List.filter_nil, Bool.false_eq_true,
        if_false, List.append_nil]
      exact h.recorded
    · intro sl hsl
      simp only [List.mem_append, List.mem_singleton] at hsl
      rcases hsl with hsl | rfl
      · exact h.arrival sl hsl
      · exact ⟨p0, hp0, by simp only; omega⟩
    · exact h.arrivalReady
    · intro sl hsl
      simp only [List.mem_append, List.mem_singleton] at hsl
      rcases hsl with hsl | rfl
      · exact h.stops sl hsl
      · rfl
    · simp only [List.filter_append, List.filter_cons, List.filter_nil, Bool.false_eq_true,
        if_false, List.append_nil]
      rw [hkeep]
      exact h.copies
  · rw [rrTurn_le s i rest hgt]
    constructor
    · refine Eq.trans (map_set_eq Process.descriptor _ _ p _ hp ?_) h.descr
      rfl
    · simp only [List.filter_append, List.filter_cons, List.filter_nil, if_true,
        List.map_append, List.map_cons, List.map_nil, List.append_assoc, List.singleton_append]
      rw [← hqueue]
      exact h.accounted
    · intro j pj hpj hj
      simp only at hpj hj
      by_cases hji : i = j
      · subst hji
        rw [List.getElem?_set_self hi] at hpj
        cases hpj
        rfl
      · rw [List.getElem?_set_ne hji] at hpj
        exact h.finished j pj hpj (by rw [hqueue]; simp [hj, Ne.symm hji])
    · simp only [List.filter_append, List.filter_cons, List.filter_nil, if_true,
        List.map_append, List.map_cons, List.map_nil, h.recorded, hp0, Option.map_some', hd0]
      rfl
    · intro sl hsl
      simp only [List.mem_append, List.mem_singleton] at hsl
      rcases hsl with hsl | rfl
      · exact h.arrival sl hsl
      · exact ⟨p0, hp0, by simp only; omega⟩
    · intro r hr
      simp only [List.mem_append, List.mem_singleton] at hr
      rcases hr with hr | rfl
      · exact h.arrivalReady r hr
      · simp only; omega
    · intro sl hsl
      simp only [List.mem_append, List.mem_singleton] at hsl
      rcases hsl with hsl | rfl
      · exact h.stops sl hsl
      · rfl
    · simp only [List.filter_append, List.filter_cons, List.filter_nil, if_true,
        List.map_append, List.map_cons, List.map_nil]
      rw [hkeep, ← h.copies, List.getElem?_set_self hi]

theorem rrWork_init (ps : List Process) (hint : ∀ p ∈ ps, IsInt p.remainingTime) :
    RRWork ps (rrInit ps) := by
  constructor
  · intro i p hp
    exact hint p (List.getElem?_mem hp)
  · intro i p p0 hp hp0
    simp only [rrInit] at hp
    rw [hp] at hp0
    cases hp0
    simp [rrInit]

theorem rrWork_step (q : Int) (hq : 0 < q) (ps : List Process) (s s1 : RRState)
    (h : RRWork ps s) (hs : rrStep q s = some s1) : RRWork ps s1 := by
  obtain ⟨i, rest, p, hqueue, hp, rfl⟩ := rrStep_eq_some.mp hs
  have hi : i < s.processes.length := (List.getElem?_eq_some_iff.mp hp).1
  have hpint := h.remInt i p hp
  by_cases hgt : p.remainingTime > q
  · rw [rrTurn_gt s i rest hgt]
    have hw : wrapInt (p.remainingTime - q) = p.remainingTime - q :=
      wrapInt_of_isInt (by unfold IsInt at hpint ⊢; omega)
    constructor
    · intro j pj hpj
      simp only at hpj
      by_cases hji : i = j
      · subst hji
        rw [List.getElem?_set_self hi] at hpj
        cases hpj
        exact isInt_wrapInt _
      · rw [List.getElem?_set_ne hji] at hpj
        exact h.remInt j pj hpj
    · intro j pj pj0 hpj hpj0
      simp only at hpj
      by_cases hji : i = j
      · subst hji
        rw [List.getElem?_set_self hi] at hpj
        cases hpj
        have := h.budget i p pj0 hp hpj0
        simp only [List.filter_append, List.filter_cons, List.filter_nil, decide_True, if_true,
          List.map_append, List.sum_append, List.map_cons, List.map_nil, List.sum_cons,
          List.sum_nil, hw]
        omega
      · rw [List.getElem?_set_ne hji] at hpj
        have := h.budget j pj pj0 hpj hpj0
        simp only [List.filter_append, List.filter_cons, List.filter_nil, hji, decide_False,
          Bool.false_eq_true, if_false, List.append_nil]
        exact this
  · rw [rrTurn_le s i rest hgt]
    constructor
    · intro j pj hpj
      simp only at hpj
      by_cases hji : i = j
      · subst hji
        rw [List.getElem?_set_self hi] at hpj
        cases hpj
        unfold IsInt; simp
      · rw [List.getElem?_set_ne hji] at hpj
        exact h.remInt j pj hpj
    · intro j pj pj0 hpj hpj0
      simp only at hpj
      by_cases hji : i = j
      · subst hji
        rw [List.getElem?_set_self hi] at hpj
        cases hpj
        have := h.budget i p pj0 hp hpj0
        simp only [List.filter_append, List.filter_cons, List.filter_nil, decide_True, if_true,
          List.map_append, List.sum_append, List.map_cons, List.map_nil, List.sum_cons,
          List.sum_nil]
        omega
      · rw [List.getElem?_set_ne hji] at hpj
        have := h.budget j pj pj0 hpj hpj0
        simp only [List.filter_append, List.filter_cons, List.filter_nil, hji, decide_False,
          Bool.false_eq_true, if_false, List.append_nil]
        exact this

theorem slicesFit_of_step (q : Int) (s s1 : RRState) (hs : rrStep q s = some s1)
    (hfit : SlicesFit s1) : SlicesFit s := by
  obtain ⟨i, rest, p, _, _, rfl⟩ := rrStep_eq_some.mp hs
  intro sl hsl
  apply hfit
  by_cases hgt : p.remainingTime > q
  · rw [rrTurn_gt s i rest hgt]; exact List.mem_append_left _ hsl
  · rw [rrTurn_le s i rest hgt]; exact List.mem_append_left _ hsl

theorem rrClock_init (ps : List Process) (h : ∀ p ∈ ps, 0 ≤ p.remainingTime) :
    RRClock (rrInit ps) := by
  constructor
  · intro i _ p hp
    exact h p (List.getElem?_mem hp)
  · simp [rrInit]
  · simp [rrInit]
  · simp [rrInit]
  · simp [rrInit]

theorem rrClock_step (q : Int) (hq : 0 ≤ q) (s s1 : RRState)
    (hint : ∀ (i : Nat) (p : Process), s.processes[i]? = some p → IsInt p.remainingTime)
    (h : RRClock s) (hs : rrStep q s = some s1) (hfit : SlicesFit s1) : RRClock s1 := by
  obtain ⟨i, rest, p, hqueue, hp, rfl⟩ := rrStep_eq_some.mp hs
  have hi : i < s.processes.length := (List.getElem?_eq_some_iff.mp hp).1
  have hrem : 0 ≤ p.remainingTime := h.remNonneg i (by rw [hqueue]; simp) p hp
  have hpint := hint i p hp
  by_cases hgt : p.remainingTime > q
  · rw [rrTurn_gt s i rest hgt] at hfit ⊢
    have hnew : IsInt (max s.currentTime p.arrivalTime + q) :=
      hfit ⟨i, max s.currentTime p.arrivalTime,
        wrapInt (max s.currentTime p.arrivalTime + q), q, false⟩ (by simp)
    have hw1 := wrapInt_of_isInt hnew
    have hw2 : wrapInt (p.remainingTime - q) = p.remainingTime - q :=
      wrapInt_of_isInt (by unfold IsInt at hpint ⊢; omega)
    rw [hw1, hw2]
    constructor
    · intro j hj pj hpj
      simp only at hpj hj
      by_cases hji : i = j
      · subst hji
        rw [List.getElem?_set_self hi] at hpj
        cases hpj
        simp only; omega
      · rw [List.getElem?_set_ne hji] at hpj
        refine h.remNonneg j ?_ pj hpj
        rw [hqueue]
        simp only [List.mem_append, List.mem_singleton] at hj
        rcases hj with hj | hj
        · exact List.mem_cons_of_mem _ hj
        · exact absurd hj.symm hji
    · simp only [List.pairwise_append, List.pairwise_singleton, List.mem_singleton, and_true]
      refine ⟨h.slicesOrdered, ?_⟩
      refine ⟨trivial, ?_⟩
      intro a ha b hb
      subst hb
      have := h.slicesBounded a ha
      simp only; omega
    · intro sl hsl
      simp only [List.mem_append, List.mem_singleton] at hsl
      rcases hsl with hsl | rfl
      · have := h.slicesBounded sl hsl
        simp only; omega
      · simp only; omega
    · exact h.readyOrdered
    · intro r hr
      have := h.readyBounded r hr
      simp only at hr ⊢; omega
  · rw [rrTurn_le s i rest hgt] at hfit ⊢
    have hnew : IsInt (max s.currentTime p.arrivalTime + p.remainingTime) :=
      hfit ⟨i, max s.currentTime p.arrivalTime,
        wrapInt (max s.currentTime p.arrivalTime + p.remainingTime), p.remainingTime, true⟩
        (by simp)
    have hw1 := wrapInt_of_isInt hnew
    rw [hw1]
    constructor
    · intro j hj pj hpj
      simp only at hpj hj
      by_cases hji : i = j
      · subst hji
        rw [List.getElem?_set_self hi] at hpj
        cases hpj
        simp
      · rw [List.getElem?_set_ne hji] at hpj
        exact h.remNonneg j (by rw [hqueue]; exact List.mem_cons_of_mem _ hj) pj hpj
    · simp only [List.pairwise_append, List.pairwise_singleton, List.mem_singleton, and_true]
      refine ⟨h.slicesOrdered, ?_⟩
      refine ⟨trivial, ?_⟩
      intro a ha b hb
      subst hb
      have := h.slicesBounded a ha
      simp only; omega
    · intro sl hsl
      simp only [List.mem_append, List.mem_singleton] at hsl
      rcases hsl with hsl | rfl
      · have := h.slicesBounded sl hsl
        simp only; omega
      · simp only; omega
    · simp only [List.pairwise_append, List.pairwise_singleton, List.mem_singleton, and_true]
      refine ⟨h.readyOrdered, ?_⟩
      refine ⟨trivial, ?_⟩
      intro a ha b hb
      subst hb
      have := h.readyBounded a ha
      simp only; omega
    · intro r hr
      simp only [List.mem_append, List.mem_singleton] at hr
      rcases hr with hr | rfl
      · have := h.readyBounded r hr
        simp only; omega
      · simp only; omega

theorem stuck_step (s s1 : RRState) (h : Stuck s) (hs : rrStep 0 s = some s1) : Stuck s1 := by
  obtain ⟨i, rest, p, hqueue, hp, rfl⟩ := rrStep_eq_some.mp hs
  have hi : i < s.processes.length := (List.getElem?_eq_some_iff.mp hp).1
  obtain ⟨j, hj, pj, hpj, hjint, hjgt⟩ := h
  by_cases hji : i = j
  · subst hji
    rw [hp] at hpj
    cases hpj
    rw [rrTurn_gt s i rest hjgt]
    have hw : wrapInt (p.remainingTime - 0) = p.remainingTime := by
      rw [Int.sub_zero]; exact wrapInt_of_isInt hjint
    refine ⟨i, by simp, _, List.getElem?_set_self hi, ?_, ?_⟩
    · simp only [hw]; exact hjint
    · simp only [hw]; exact hjgt
  · have hjrest : j ∈ rest := by
      rw [hqueue] at hj
      rcases List.mem_cons.mp hj with h1 | h1
      · exact absurd h1.symm hji
      · exact h1
    by_cases hgt : p.remainingTime > 0
    · rw [rrTurn_gt s i rest hgt]
      exact ⟨j, by simp [hjrest], pj, by simp only; rw [List.getElem?_set_ne hji]; exact hpj,
        hjint, hjgt⟩
    · rw [rrTurn_le s i rest hgt]
      exact ⟨j, hjrest, pj, by simp only; rw [List.getElem?_set_ne hji]; exact hpj, hjint,
        hjgt⟩

theorem rrLoop_stuck : ∀ (fuel : Nat) (s : RRState), Stuck s → rrLoop 0 fuel s = none := by
  intro fuel
  induction fuel with
  | zero =>
    intro s h
    obtain ⟨i, hi, _⟩ := h
    exact rrLoop_zero 0 s (List.ne_nil_of_mem hi)
  | succ fuel ih =>
    intro s h
    have hne : s.processQueue ≠ [] := by
      obtain ⟨i, hi, _⟩ := h
      exact List.ne_nil_of_mem hi
    rw [rrLoop_succ 0 fuel s hne]
    cases hs : rrStep 0 s with
    | none => rfl
    | some s2 => exact ih s2 (stuck_step s s2 h hs)

theorem stuck_init (ps : List Process)
    (h : ∃ p ∈ ps, IsInt p.remainingTime ∧ p.remainingTime > 0) : Stuck (rrInit ps) := by
  obtain ⟨p, hp, hint, hgt⟩ := h
  obtain ⟨i, hi, hpi⟩ := List.getElem_of_mem hp
  exact ⟨i, by simp [rrInit, hi], p, by simp [rrInit, ← hpi, List.getElem?_eq_getElem hi],
    hint, hgt⟩

theorem finishInTurn_length (c : Int) (l : List Process) : (finishInTurn c l).length = l.length := by
  induction l generalizing c with
  | nil => rfl
  | cons p rest ih => simp [finishInTurn, ih]

theorem rrLoop_single (q : Int) :
    ∀ (todo pre : List Process) (s : RRState) (fuel : Nat),
      s.processes = pre ++ todo → s.processQueue = List.range' pre.length todo.length →
      (∀ p ∈ todo, p.remainingTime ≤ q) → todo.length ≤ fuel →
      ∃ s1, rrLoop q fuel s = some s1 ∧ s1.processQueue = [] ∧
        s1.processes = pre ++ finishInTurn s.currentTime todo ∧
        s1.readyQueue = s.readyQueue ++ finishInTurn s.currentTime todo ∧
        s1.slices.map (fun sl => (sl.proc, sl.final))
          = s.slices.map (fun sl => (sl.proc, sl.final))
            ++ (List.range' pre.length todo.length).map (fun i => (i, true)) := by
  intro todo
  induction todo with
  | nil =>
    intro pre s fuel hprocs hqueue _ _
    have hq : s.processQueue = [] := by simpa using hqueue
    exact ⟨s, rrLoop_nil q fuel s hq, hq, by simpa [finishInTurn] using hprocs,
      by simp [finishInTurn], by simp⟩
  | cons p rest ih =>
    intro pre s fuel hprocs hqueue hle hfuel
    have hqueue1 : s.processQueue = pre.length :: List.range' (pre.length + 1) rest.length := by
      rw [hqueue]; rfl
    have hp : s.processes[pre.length]? = some p := by
      rw [hprocs, List.getElem?_append_right (Nat.le_refl _)]; simp
    have hple : ¬ p.remainingTime > q := by
      have := hle p (List.mem_cons_self _ _); omega
    obtain ⟨fuel1, rfl⟩ : ∃ f, fuel = f + 1 := ⟨fuel - 1, by simp at hfuel; omega⟩
    have hstep : rrStep q s = some (rrTurn q s pre.length (List.range' (pre.length + 1) rest.length) p) :=
      rrStep_eq_some.mpr ⟨_, _, _, hqueue1, hp, rfl⟩
    rw [rrLoop_succ q fuel1 s (by rw [hqueue1]; simp), hstep, Option.some_bind]
    rw [rrTurn_le s _ _ hple]
    have := ih (pre ++ [Process.mk p.id p.name p.arrivalTime p.burstTime p.priority
        (max s.currentTime p.arrivalTime)
        (wrapInt (max s.currentTime p.arrivalTime + p.remainingTime)) 0])
      { processes := s.processes.set pre.length
          (Process.mk p.id p.name p.arrivalTime p.burstTime p.priority
            (max s.currentTime p.arrivalTime)
            (wrapInt (max s.currentTime p.arrivalTime + p.remainingTime)) 0)
        processQueue := List.range' (pre.length + 1) rest.length
        currentTime := wrapInt (max s.currentTime p.arrivalTime + p.remainingTime)
        readyQueue := s.readyQueue ++ [Process.mk p.id p.name p.arrivalTime p.burstTime p.priority
            (max s.currentTime p.arrivalTime)
            (wrapInt (max s.currentTime p.arrivalTime + p.remainingTime)) 0]
        slices := s.slices ++ [⟨pre.length, max s.currentTime p.arrivalTime,
          wrapInt (max s.currentTime p.arrivalTime + p.remainingTime), p.remainingTime,
          true⟩] } fuel1
      (by simp [hprocs]) (by simp)
      (fun x hx => hle x (List.mem_cons_of_mem _ hx)) (by simp at hfuel; omega)
    obtain ⟨s1, h1, h2, h3, h4, h5⟩ := this
    refine ⟨s1, h1, h2, ?_, ?_, ?_⟩
    · rw [h3]; simp [finishInTurn]
    · rw [h4]; simp [finishInTurn]
    · rw [h5]; simp [List.range'_succ]

theorem workLeft_init (ps : List Process) : workLeft (rrInit ps) = rrFuel ps := by
  unfold workLeft rrFuel rrInit
  simp only
  congr 1
  apply List.ext_getElem
  · simp
  · intro i h1 h2
    have hi : i < ps.length := by simpa using h2
    simp [turnsLeft, List.getElem?_eq_getElem hi]

theorem rr_run (q : Int) (hq : 0 < q) (ps : List Process) (fuel : Nat) (hf : rrFuel ps ≤ fuel) :
    ∃ s, SimulateRoundRobin q fuel ps = some s ∧ s.processQueue = [] ∧ RRInv ps s := by
  obtain ⟨s, hs⟩ := rrLoop_terminates q hq fuel (rrInit ps) (queueInBounds_init ps)
    (by rw [workLeft_init]; exact hf)
  have := rrLoop_invariant q (RRInv ps) (rrInv_step q ps) fuel (rrInit ps) s (rrInv_init ps) hs
  exact ⟨s, hs, this.2, this.1⟩

theorem rr_run_work (q : Int) (hq : 0 < q) (ps : List Process)
    (hint : ∀ p ∈ ps, IsInt p.remainingTime) (fuel : Nat) (s : RRState)
    (hs : SimulateRoundRobin q fuel ps = some s) : RRWork ps s :=
  (rrLoop_invariant q (RRWork ps) (rrWork_step q hq ps) fuel (rrInit ps) s
    (rrWork_init ps hint) hs).1

theorem rr_run_clock (q : Int) (hq : 0 < q) (ps : List Process)
    (hint : ∀ p ∈ ps, IsInt p.remainingTime) (hrem : ∀ p ∈ ps, 0 ≤ p.remainingTime)
    (fuel : Nat) (s : RRState) (hs : SimulateRoundRobin q fuel ps = some s)
    (hfit : SlicesFit s) : RRClock s := by
  have := rrLoop_invariant q (fun t => RRWork ps t ∧ (SlicesFit t → RRClock t))
    (fun t t1 ht hstep => ⟨rrWork_step q hq ps t t1 ht.1 hstep, fun hfit1 =>
      rrClock_step q (le_of_lt hq) t t1 ht.1.remInt
        (ht.2 (slicesFit_of_step q t t1 hstep hfit1)) hstep hfit1⟩)
    fuel (rrInit ps) s ⟨rrWork_init ps hint, fun _ => rrClock_init ps hrem⟩ hs
  exact this.1.2 hfit

theorem rrInv_length {ps : List Process} {s : RRState} (h : RRInv ps s) :
    s.processes.length = ps.length := by
  have := congrArg List.length h.descr
  simpa using this

theorem rrInv_all_finished {ps : List Process} {s : RRState} (h : RRInv ps s)
    (hq : s.processQueue = []) : ∀ p ∈ s.processes, p.remainingTime = 0 := by
  intro p hp
  obtain ⟨i, hi⟩ := List.mem_iff_getElem?.mp hp
  exact h.finished i p hi (by simp [hq])

theorem rrInv_final_slices {ps : List Process} {s : RRState} (h : RRInv ps s)
    (hq : s.processQueue = []) :
    ((s.slices.filter (fun sl => sl.final)).map (fun sl => sl.proc)).Perm
      (List.range ps.length) := by
  have := h.accounted
  rwa [hq, List.append_nil] at this

theorem range_map_lookup {β : Type} (ps : List Process) (f : Process → β) :
    (List.range ps.length).map (fun i => (ps[i]?).map f) = ps.map (fun p => some (f p)) := by
  apply List.ext_getElem
  · simp
  · intro i h1 h2
    have hi : i < ps.length := by simpa using h2
    simp [List.getElem?_eq_getElem hi]

theorem rrInv_ready_perm {ps : List Process} {s : RRState} (h : RRInv ps s)
    (hq : s.processQueue = []) :
    (s.readyQueue.map Process.descriptor).Perm (ps.map Process.descriptor) := by
  have h1 := congrArg (List.map (fun t => t.1)) h.recorded
  simp only [List.map_map] at h1
  have h2 : (s.readyQueue.map (fun r => some r.descriptor)).Perm
      (ps.map (fun p => some p.descriptor)) := by
    have h3 := (rrInv_final_slices h hq).map (fun i => (ps[i]?).map Process.descriptor)
    rw [range_map_lookup, List.map_map] at h3
    have h4 : s.readyQueue.map (fun r => some r.descriptor)
        = (s.slices.filter (fun sl => sl.final)).map
          ((fun i => (ps[i]?).map Process.descriptor) ∘ fun sl => sl.proc) := h1
    rw [h4]
    exact h3
  have h5 := h2.map (fun o => o.getD default)
  simpa [List.map_map, Function.comp_def] using h5

theorem rrInv_ready_perm_processes {ps : List Process} {s : RRState} (h : RRInv ps s)
    (hq : s.processQueue = []) : s.readyQueue.Perm s.processes := by
  have h1 := (rrInv_final_slices h hq).map (fun i => s.processes[i]?)
  rw [← h.copies] at h1
  have h2 : (List.range ps.length).map (fun i => s.processes[i]?) = s.processes.map some := by
    rw [← rrInv_length h]
    apply List.ext_getElem
    · simp
    · intro i h3 h4
      have hi : i < s.processes.length := by simpa using h4
      simp [List.getElem?_eq_getElem hi]
  rw [h2] at h1
  have h5 := h1.map (fun o => o.getD (Process.mk 0 "" 0 0 0 0 0 0))
  simpa [List.map_map, Function.comp_def] using h5

theorem rrInv_ready_finished {ps : List Process} {s : RRState} (h : RRInv ps s) :
    ∀ r ∈ s.readyQueue, r.remainingTime = 0 := by
  intro r hr
  have h1 := congrArg (List.map (fun t => t.2.2.2)) h.recorded
  simp only [List.map_map] at h1
  have h2 : r.remainingTime ∈ s.readyQueue.map (fun r => r.remainingTime) :=
    List.mem_map_of_mem _ hr
  have h3 : s.readyQueue.map (fun r => r.remainingTime)
      = (s.slices.filter (fun sl => sl.final)).map (fun _ => (0 : Int)) := h1
  rw [h3] at h2
  simp only [List.mem_map] at h2
  obtain ⟨_, _, h0⟩ := h2
  exact h0.symm

theorem rr_length_sum {ps : List Process} {s : RRState} (h : RRInv ps s) (hw : RRWork ps s)
    (hq : s.processQueue = []) (i : Nat) (p0 : Process) (hp0 : ps[i]? = some p0) :
    ((s.slices.filter (fun sl => decide (sl.proc = i))).map (fun sl => sl.length)).sum
      = p0.remainingTime := by
  have hi : i < s.processes.length := by
    rw [rrInv_length h]; exact (List.getElem?_eq_some_iff.mp hp0).1
  have hp : s.processes[i]? = some s.processes[i] := List.getElem?_eq_getElem hi
  have h1 := hw.budget i _ p0 hp hp0
  have h2 := h.finished i _ hp (by simp [hq])
  omega

theorem rr_duration_eq_length {ps : List Process} {s : RRState} (h : RRInv ps s)
    (hfit : SlicesFit s) (i : Nat) :
    (s.slices.filter (fun sl => decide (sl.proc = i))).map (fun sl => sl.stop - sl.start)
      = (s.slices.filter (fun sl => decide (sl.proc = i))).map (fun sl => sl.length) := by
  apply List.map_congr_left
  intro sl hsl
  have hmem : sl ∈ s.slices := (List.mem_filter.mp hsl).1
  rw [h.stops sl hmem, wrapInt_of_isInt (hfit sl hmem)]
  omega

theorem finishInTurn_eq (c : Int) (l : List Process)
    (h : ∀ p ∈ l, p.remainingTime = p.burstTime) :
    finishInTurn c l = (advanceClock c l).map (fun p => { p with remainingTime := 0 }) := by
  induction l generalizing c with
  | nil => rfl
  | cons p rest ih =>
    have hp := h p (List.mem_cons_self _ _)
    simp only [finishInTurn, advanceClock, max_eq_ite, List.map_cons, hp]
    rw [ih _ (fun x hx => h x (List.mem_cons_of_mem _ hx))]

theorem rr_single_run (q : Int) (ps : List Process) (h : ∀ p ∈ ps, p.remainingTime ≤ q)
    (fuel : Nat) (hf : ps.length ≤ fuel) :
    ∃ s, SimulateRoundRobin q fuel ps = some s ∧ s.processQueue = [] ∧
      s.processes = finishInTurn 0 ps ∧ s.readyQueue = finishInTurn 0 ps ∧
      s.slices.map (fun sl => (sl.proc, sl.final))
        = (List.range ps.length).map (fun i => (i, true)) := by
  have := rrLoop_single q ps [] (rrInit ps) fuel (by simp [rrInit])
    (by simp [rrInit, List.range_eq_range']) h hf
  simpa [rrInit, SimulateRoundRobin, List.range_eq_range'] using this

theorem slicesFit_of_check (q : Int) (fuel : Nat) (ps : List Process) (s : RRState)
    (hs : SimulateRoundRobin q fuel ps = some s)
    (hc : (SimulateRoundRobin q fuel ps).all (fun t => decide (SlicesFit t)) = true) :
    SlicesFit s := by
  rw [hs] at hc
  simpa using hc

theorem sorted_schedule (sort : (Process → Process → Bool) → List Process → List Process)
    (hsort : StdSortSpec sort) (comp : Process → Process → Bool) (hcomp : StrictWeakOrder comp)
    (ps : List Process) :
    ((advanceClock 0 (sort comp ps)).map (fun p => (p.descriptor, p.remainingTime))).Perm
        (ps.map (fun p => (p.descriptor, p.remainingTime))) ∧
      (advanceClock 0 (sort comp ps)).length = ps.length ∧
      (ps = [] → advanceClock 0 (sort comp ps) = []) ∧
      (EndsFit (advanceClock 0 (sort comp ps)) →
        ClockWalk 0 (advanceClock 0 (sort comp ps)) ∧
        lastEndFrom 0 (advanceClock 0 (sort comp ps))
          = (ps.map Process.burstTime).sum + (idleTimes 0 (advanceClock 0 (sort comp ps))).sum ∧
        ∀ d ∈ idleTimes 0 (advanceClock 0 (sort comp ps)), 0 ≤ d) := by
  have hperm := (hsort comp hcomp ps).1
  refine ⟨?_, ?_, ?_, ?_⟩
  · rw [advanceClock_map_input]
    exact hperm.map _
  · rw [advanceClock_length]; exact hperm.length_eq
  · intro h
    subst h
    have := hperm.length_eq
    have h0 : sort comp [] = [] := List.length_eq_zero.mp (by simpa using this)
    rw [h0]; rfl
  · intro hfit
    rw [advanceClock_eq_exact 0 _ hfit]
    refine ⟨fcfsByInputOrder_clockWalk _ _, ?_, idleTimes_nonneg _ _⟩
    rw [fcfsByInputOrder_lastEnd, (hperm.map Process.burstTime).sum_eq]
    omega

theorem sorted_bursts {sort : (Process → Process → Bool) → List Process → List Process}
    (hsort : StdSortSpec sort) {comp : Process → Process → Bool} (hcomp : StrictWeakOrder comp)
    {ps : List Process} (hvalid : ValidInput ps) : ∀ p ∈ sort comp ps, 0 ≤ p.burstTime := by
  intro p hp
  have := hvalid p ((hsort comp hcomp ps).1.subset hp)
  omega

theorem sorted_pairwise {sort : (Process → Process → Bool) → List Process → List Process}
    (hsort : StdSortSpec sort) {comp : Process → Process → Bool} (hcomp : StrictWeakOrder comp)
    {ps : List Process} (hvalid : ValidInput ps)
    (hfit : EndsFit (advanceClock 0 (sort comp ps))) :
    (advanceClock 0 (sort comp ps)).Pairwise
      (fun a b => a.endTime ≤ b.startTime ∧ a.startTime ≤ b.startTime) := by
  rw [advanceClock_eq_exact 0 _ hfit]
  exact fcfsByInputOrder_pairwise 0 _ (sorted_bursts hsort hcomp hvalid)

theorem pairwise_of_sorted_descriptor
    (sort : (Process → Process → Bool) → List Process → List Process)
    (hsort : StdSortSpec sort) (comp : Process → Process → Bool) (hcomp : StrictWeakOrder comp)
    (R : Int × String × Int × Int × Int → Int × String × Int × Int × Int → Prop)
    (hR : ∀ a b : Process, comp b a = false → R a.descriptor b.descriptor)
    (ps : List Process) :
    (advanceClock 0 (sort comp ps)).Pairwise (fun a b => R a.descriptor b.descriptor) :=
  advanceClock_pairwise_descriptor R 0 _
    ((hsort comp hcomp ps).2.imp (fun {a b} h => hR a b h))

theorem sorted_descriptor_perm
    (sort : (Process → Process → Bool) → List Process → List Process)
    (hsort : StdSortSpec sort) (comp : Process → Process → Bool) (hcomp : StrictWeakOrder comp)
    (ps : List Process) :
    ((advanceClock 0 (sort comp ps)).map Process.descriptor).Perm (ps.map Process.descriptor) := by
  rw [advanceClock_map_descriptor]
  exact (hsort comp hcomp ps).1.map _

/-! ## The properties of the schedules -/

set_option maxRecDepth 100000

/-- Claim C1 fails as stated: on P1(arrival 0, burst 2147483647), P2(arrival 0,
burst 1), P3(arrival 0, burst 1) the end time of P2 overflows.  `SimulateFCFS`
returns P2:[2147483647,-2147483648) and P3:[0,1), so the end of P2 is not its
start plus its burst, and the last end time is 1 while the burst times and the
idle time add up to 4294967297. -/
theorem fcfs_end_time_overflows :
    (SimulateFCFS gnuStdSort overflowTriple).map
        (fun p => (p.name, p.burstTime, p.startTime, p.endTime))
      = [("P1", 2147483647, 0, 2147483647), ("P2", 1, 2147483647, -2147483648),
          ("P3", 1, 0, 1)] ∧
    lastEndFrom 0 (SimulateFCFS gnuStdSort overflowTriple) = 1 ∧
    (overflowTriple.map Process.burstTime).sum
        + (idleTimes 0 (SimulateFCFS gnuStdSort overflowTriple)).sum = 4294967297 := by
  decide

/-- Claim C1 as amended: for each of `SimulateFCFS`, `SimulatePriorityScheduling`
and `SimulateSJF` and every process list, the scheduled list is a permutation
of the input processes (one entry per process, fields entered by the user and
remaining time unchanged; empty input gives empty output); and when no end
time overflowed (every startTime + burstTime is in the range of `int`), read
in order with a clock starting at 0 each process has startTime = max(clock,
arrivalTime) and endTime = startTime + burstTime, the clock then standing at
endTime, and the last endTime is the sum of all burst times plus the total
idle time, every idle amount being non-negative. -/
theorem nonpreemptive_schedule
    (sort : (Process → Process → Bool) → List Process → List Process)
    (hsort : StdSortSpec sort) (ps : List Process) :
    ∀ out ∈ [SimulateFCFS sort ps, SimulatePriorityScheduling sort ps, SimulateSJF sort ps],
      (out.map (fun p => (p.descriptor, p.remainingTime))).Perm
          (ps.map (fun p => (p.descriptor, p.remainingTime))) ∧
        out.length = ps.length ∧
        (ps = [] → out = []) ∧
        (EndsFit out →
          ClockWalk 0 out ∧
          lastEndFrom 0 out = (ps.map Process.burstTime).sum + (idleTimes 0 out).sum ∧
          ∀ d ∈ idleTimes 0 out, 0 ≤ d) := by
  intro out hout
  simp only [List.mem_cons, List.mem_singleton, List.not_mem_nil, or_false] at hout
  rcases hout with rfl | rfl | rfl
  · exact sorted_schedule sort hsort compFCFS strictWeakOrder_compFCFS ps
  · exact sorted_schedule sort hsort compPriority strictWeakOrder_compPriority ps
  · exact sorted_schedule sort hsort compSJF strictWeakOrder_compSJF ps

theorem nonpreemptive_schedule_witness :
    StdSortSpec insertionStdSort ∧
    ∀ out ∈ [SimulateFCFS insertionStdSort staggeredPair,
        SimulatePriorityScheduling insertionStdSort staggeredPair,
        SimulateSJF insertionStdSort staggeredPair],
      EndsFit out ∧
        (out.map (fun p => (p.descriptor, p.remainingTime))).Perm
          (staggeredPair.map (fun p => (p.descriptor, p.remainingTime))) ∧
        out.length = staggeredPair.length ∧
        ClockWalk 0 out ∧
        lastEndFrom 0 out
          = (staggeredPair.map Process.burstTime).sum + (idleTimes 0 out).sum ∧
        ∀ d ∈ idleTimes 0 out, 0 ≤ d := by
  refine ⟨stdSortSpec_insertionStdSort, ?_⟩
  intro out hout
  have hfit : EndsFit out := by
    simp only [List.mem_cons, List.mem_singleton, List.not_mem_nil, or_false] at hout
    rcases hout with rfl | rfl | rfl <;> decide
  have h := nonpreemptive_schedule insertionStdSort stdSortSpec_insertionStdSort
    staggeredPair out hout
  exact ⟨hfit, h.1, h.2.1, (h.2.2.2 hfit).1, (h.2.2.2 hfit).2.1, (h.2.2.2 hfit).2.2⟩

/-- Claim C2 fails as stated: P1(arrival 0, burst 2147483647), P2(arrival 0,
burst 1), P3(arrival 0, burst 1) is a valid input, and `SimulateFCFS` returns
P1:[0,2147483647), P2:[2147483647,-2147483648), P3:[0,1): the list is not
sorted by start and P3 lies inside P1. -/
theorem fcfs_overflow_overlaps :
    ValidInput overflowTriple ∧
    (SimulateFCFS gnuStdSort overflowTriple).map (fun p => (p.name, p.startTime, p.endTime))
      = [("P1", 0, 2147483647), ("P2", 2147483647, -2147483648), ("P3", 0, 1)] ∧
    ¬ (SimulateFCFS gnuStdSort overflowTriple).Pairwise
        (fun a b => a.endTime ≤ b.startTime ∧ a.startTime ≤ b.startTime) := by
  refine ⟨by decide, by decide, ?_⟩
  have hout : SimulateFCFS gnuStdSort overflowTriple
      = [Process.mk 1 "P1" 0 2147483647 0 0 2147483647 2147483647,
          Process.mk 2 "P2" 0 1 0 2147483647 (-2147483648) 1,
          Process.mk 3 "P3" 0 1 0 0 1 1] := by decide
  rw [hout]
  intro h
  have h13 := (List.pairwise_cons.mp h).1 (Process.mk 3 "P3" 0 1 0 0 1 1) (by simp)
  exact absurd h13.1 (by decide)

/-- Claim C2 as amended: for every valid input of `int` fields and a positive
quantum, the intervals a routine returns are sorted by start and do not
overlap whenever no clock addition of that run overflowed: of any two entries
of the returned list (in particular two consecutive ones) the earlier one ends
no later than the later one starts, and starts no later.  For Round Robin this
holds of the returned `readyQueue` and also of all the slices the loop runs. -/
theorem intervals_do_not_overlap
    (sort : (Process → Process → Bool) → List Process → List Process)
    (hsort : StdSortSpec sort) (ps : List Process) (hvalid : ValidInput ps)
    (hint : IntFields ps) (quantum : Int) (hq : 0 < quantum) :
    (∀ out ∈ [SimulateFCFS sort ps, SimulatePriorityScheduling sort ps, SimulateSJF sort ps],
      EndsFit out →
        out.Pairwise (fun a b => a.endTime ≤ b.startTime ∧ a.startTime ≤ b.startTime)) ∧
    ∀ fuel, rrFuel ps ≤ fuel →
      ∃ s, SimulateRoundRobin quantum fuel ps = some s ∧
        (SlicesFit s →
          s.readyQueue.Pairwise
              (fun a b => a.endTime ≤ b.startTime ∧ a.startTime ≤ b.startTime) ∧
            s.slices.Pairwise (fun a b => a.stop ≤ b.start ∧ a.start ≤ b.start)) := by
  constructor
  · intro out hout hfit
    simp only [List.mem_cons, List.mem_singleton, List.not_mem_nil, or_false] at hout
    rcases hout with rfl | rfl | rfl
    · exact sorted_pairwise hsort strictWeakOrder_compFCFS hvalid hfit
    · exact sorted_pairwise hsort strictWeakOrder_compPriority hvalid hfit
    · exact sorted_pairwise hsort strictWeakOrder_compSJF hvalid hfit
  · intro fuel hf
    obtain ⟨s, hs, _, _⟩ := rr_run quantum hq ps fuel hf
    refine ⟨s, hs, fun hfit => ?_⟩
    have hc := rr_run_clock quantum hq ps (fun p hp => (hint p hp).2.2)
      (fun p hp => by have := hvalid p hp; omega) fuel s hs hfit
    exact ⟨hc.readyOrdered, hc.slicesOrdered⟩

theorem intervals_do_not_overlap_witness :
    StdSortSpec insertionStdSort ∧ ValidInput roundRobinPair ∧ IntFields roundRobinPair ∧
    (0 : Int) < 2 ∧
    (∀ out ∈ [SimulateFCFS insertionStdSort roundRobinPair,
        SimulatePriorityScheduling insertionStdSort roundRobinPair,
        SimulateSJF insertionStdSort roundRobinPair],
      EndsFit out ∧
        out.Pairwise (fun a b => a.endTime ≤ b.startTime ∧ a.startTime ≤ b.startTime)) ∧
    ∃ s, SimulateRoundRobin 2 (rrFuel roundRobinPair) roundRobinPair = some s ∧
      SlicesFit s ∧
      s.readyQueue.Pairwise (fun a b => a.endTime ≤ b.startTime ∧ a.startTime ≤ b.startTime) ∧
      s.slices.Pairwise (fun a b => a.stop ≤ b.start ∧ a.start ≤ b.start) := by
  have h := intervals_do_not_overlap insertionStdSort stdSortSpec_insertionStdSort
    roundRobinPair (by decide) (by decide) 2 (by decide)
  refine ⟨stdSortSpec_insertionStdSort, by decide, by decide, by decide, ?_, ?_⟩
  · intro out hout
    have hfit : EndsFit out := by
      simp only [List.mem_cons, List.mem_singleton, List.not_mem_nil, or_false] at hout
      rcases hout with rfl | rfl | rfl <;> decide
    exact ⟨hfit, h.1 out hout hfit⟩
  · obtain ⟨s, hs, himp⟩ := h.2 (rrFuel roundRobinPair) (le_refl _)
    have hfit : SlicesFit s :=
      slicesFit_of_check 2 (rrFuel roundRobinPair) roundRobinPair s hs (by decide)
    exact ⟨s, hs, hfit, (himp hfit).1, (himp hfit).2⟩

/-- Claim C3: no interval starts before its process arrives.  Every entry the
three non-preemptive routines return has arrivalTime <= startTime; with a
positive quantum every start value the Round Robin loop assigns (one per slice)
is at least the arrival time of the process it is assigned to, and so is the
start of every returned entry. -/
theorem start_not_before_arrival
    (sort : (Process → Process → Bool) → List Process → List Process)
    (ps : List Process) (quantum : Int) (hq : 0 < quantum) :
    (∀ out ∈ [SimulateFCFS sort ps, SimulatePriorityScheduling sort ps, SimulateSJF sort ps],
      ∀ p ∈ out, p.arrivalTime ≤ p.startTime) ∧
    ∀ fuel, rrFuel ps ≤ fuel →
      ∃ s, SimulateRoundRobin quantum fuel ps = some s ∧
        (∀ sl ∈ s.slices, ∃ p, ps[sl.proc]? = some p ∧ p.arrivalTime ≤ sl.start) ∧
        (∀ r ∈ s.readyQueue, r.arrivalTime ≤ r.startTime) := by
  constructor
  · intro out hout
    simp only [List.mem_cons, List.mem_singleton, List.not_mem_nil, or_false] at hout
    rcases hout with rfl | rfl | rfl <;> exact advanceClock_arrival_le 0 _
  · intro fuel hf
    obtain ⟨s, hs, _, hinv⟩ := rr_run quantum hq ps fuel hf
    exact ⟨s, hs, hinv.arrival, hinv.arrivalReady⟩

theorem start_not_before_arrival_witness :
    (0 : Int) < 2 ∧
    ((∀ out ∈ [SimulateFCFS insertionStdSort staggeredPair,
        SimulatePriorityScheduling insertionStdSort staggeredPair,
        SimulateSJF insertionStdSort staggeredPair],
      ∀ p ∈ out, p.arrivalTime ≤ p.startTime) ∧
    ∀ fuel, rrFuel staggeredPair ≤ fuel →
      ∃ s, SimulateRoundRobin 2 fuel staggeredPair = some s ∧
        (∀ sl ∈ s.slices, ∃ p, staggeredPair[sl.proc]? = some p ∧ p.arrivalTime ≤ sl.start) ∧
        (∀ r ∈ s.readyQueue, r.arrivalTime ≤ r.startTime)) :=
  ⟨by decide, start_not_before_arrival insertionStdSort staggeredPair 2 (by decide)⟩

/-- Claim C4: `SimulatePriorityScheduling` schedules the processes of the list,
each once, in ascending arrivalTime, equal arrivals by descending priority, and
`SimulateSJF` schedules them in ascending arrivalTime, equal arrivals by
ascending burstTime; the order holds of any two scheduled processes, hence of
consecutive ones.  On P1(arrival 0, burst 4, priority 1), P2(arrival 0,
burst 2, priority 5) Priority gives P2:[0,2), P1:[2,6). -/
theorem priority_and_sjf_order
    (sort : (Process → Process → Bool) → List Process → List Process)
    (hsort : StdSortSpec sort) (ps : List Process) :
    ((SimulatePriorityScheduling sort ps).map Process.descriptor).Perm
        (ps.map Process.descriptor) ∧
      (SimulatePriorityScheduling sort ps).Pairwise (fun a b =>
        a.arrivalTime < b.arrivalTime ∨
          (a.arrivalTime = b.arrivalTime ∧ a.priority ≥ b.priority)) ∧
      (SimulatePriorityScheduling sort ps).Chain' (fun a b =>
        a.arrivalTime < b.arrivalTime ∨
          (a.arrivalTime = b.arrivalTime ∧ a.priority ≥ b.priority)) ∧
      ((SimulateSJF sort ps).map Process.descriptor).Perm (ps.map Process.descriptor) ∧
      (SimulateSJF sort ps).Pairwise (fun a b =>
        a.arrivalTime < b.arrivalTime ∨
          (a.arrivalTime = b.arrivalTime ∧ a.burstTime ≤ b.burstTime)) ∧
      (SimulateSJF sort ps).Chain' (fun a b =>
        a.arrivalTime < b.arrivalTime ∨
          (a.arrivalTime = b.arrivalTime ∧ a.burstTime ≤ b.burstTime)) ∧
      (SimulatePriorityScheduling sort priorityPair).map
          (fun p => (p.name, p.startTime, p.endTime))
        = [("P2", 0, 2), ("P1", 2, 6)] := by
  have hP : (SimulatePriorityScheduling sort ps).Pairwise (fun a b =>
      a.arrivalTime < b.arrivalTime ∨
        (a.arrivalTime = b.arrivalTime ∧ a.priority ≥ b.priority)) :=
    pairwise_of_sorted_descriptor sort hsort compPriority strictWeakOrder_compPriority
      (fun a b => a.2.2.1 < b.2.2.1 ∨ (a.2.2.1 = b.2.2.1 ∧ a.2.2.2.2 ≥ b.2.2.2.2))
      (fun a b h => by
        rw [compPriority_eq_false] at h
        simp only [Process.descriptor]; omega) ps
  have hJ : (SimulateSJF sort ps).Pairwise (fun a b =>
      a.arrivalTime < b.arrivalTime ∨
        (a.arrivalTime = b.arrivalTime ∧ a.burstTime ≤ b.burstTime)) :=
    pairwise_of_sorted_descriptor sort hsort compSJF strictWeakOrder_compSJF
      (fun a b => a.2.2.1 < b.2.2.1 ∨ (a.2.2.1 = b.2.2.1 ∧ a.2.2.2.1 ≤ b.2.2.2.1))
      (fun a b h => by
        rw [compSJF_eq_false] at h
        simp only [Process.descriptor]; omega) ps
  refine ⟨sorted_descriptor_perm sort hsort compPriority strictWeakOrder_compPriority ps,
    hP, hP.chain', sorted_descriptor_perm sort hsort compSJF strictWeakOrder_compSJF ps,
    hJ, hJ.chain', ?_⟩
  have hs := hsort compPriority strictWeakOrder_compPriority priorityPair
  rcases perm_pair hs.1 with h | h
  · exfalso
    rw [h] at hs
    have h2 := (List.pairwise_cons.mp hs.2).1 (newProcess 1 "P2" 0 2 5) (by simp)
    exact absurd h2 (by decide)
  · simp only [SimulatePriorityScheduling]
    rw [h]
    decide

theorem priority_and_sjf_order_witness :
    StdSortSpec insertionStdSort ∧
    (((SimulatePriorityScheduling insertionStdSort priorityPair).map Process.descriptor).Perm
        (priorityPair.map Process.descriptor) ∧
      (SimulatePriorityScheduling insertionStdSort priorityPair).Pairwise (fun a b =>
        a.arrivalTime < b.arrivalTime ∨
          (a.arrivalTime = b.arrivalTime ∧ a.priority ≥ b.priority)) ∧
      (SimulatePriorityScheduling insertionStdSort priorityPair).Chain' (fun a b =>
        a.arrivalTime < b.arrivalTime ∨
          (a.arrivalTime = b.arrivalTime ∧ a.priority ≥ b.priority)) ∧
      ((SimulateSJF insertionStdSort priorityPair).map Process.descriptor).Perm
        (priorityPair.map Process.descriptor) ∧
      (SimulateSJF insertionStdSort priorityPair).Pairwise (fun a b =>
        a.arrivalTime < b.arrivalTime ∨
          (a.arrivalTime = b.arrivalTime ∧ a.burstTime ≤ b.burstTime)) ∧
      (SimulateSJF insertionStdSort priorityPair).Chain' (fun a b =>
        a.arrivalTime < b.arrivalTime ∨
          (a.arrivalTime = b.arrivalTime ∧ a.burstTime ≤ b.burstTime)) ∧
      (SimulatePriorityScheduling insertionStdSort priorityPair).map
          (fun p => (p.name, p.startTime, p.endTime))
        = [("P2", 0, 2), ("P1", 2, 6)]) :=
  ⟨stdSortSpec_insertionStdSort,
    priority_and_sjf_order insertionStdSort stdSortSpec_insertionStdSort priorityPair⟩

/-- Claim C5 fails as stated: seventeen processes entered in the order 1 to 17,
all arriving at time 0, are scheduled by `SimulateFCFS` with the GNU
`std::sort` in the order 9, 17, 16, ..., so process 9 runs before process 1
although process 1 precedes it in the input with the same arrival time. -/
theorem fcfs_reorders_simultaneous_arrivals :
    simultaneous.map (fun p => (p.id, p.arrivalTime))
        = [(1, 0), (2, 0), (3, 0), (4, 0), (5, 0), (6, 0), (7, 0), (8, 0), (9, 0), (10, 0),
            (11, 0), (12, 0), (13, 0), (14, 0), (15, 0), (16, 0), (17, 0)] ∧
      (SimulateFCFS gnuStdSort simultaneous).map (fun p => p.id)
        = [9, 17, 16, 15, 14, 13, 12, 11, 10, 1, 8, 7, 6, 5, 4, 3, 2] := by
  decide

/-- Claim C5 as amended: `SimulateFCFS` schedules the input processes, each
once, in ascending arrivalTime order; nothing is said about the relative order
of processes with equal arrivalTime. -/
theorem fcfs_ascending_arrival
    (sort : (Process → Process → Bool) → List Process → List Process)
    (hsort : StdSortSpec sort) (ps : List Process) :
    (SimulateFCFS sort ps).Pairwise (fun a b => a.arrivalTime ≤ b.arrivalTime) ∧
      (SimulateFCFS sort ps).Chain' (fun a b => a.arrivalTime ≤ b.arrivalTime) ∧
      ((SimulateFCFS sort ps).map Process.descriptor).Perm (ps.map Process.descriptor) := by
  have hP : (SimulateFCFS sort ps).Pairwise (fun a b => a.arrivalTime ≤ b.arrivalTime) :=
    advanceClock_pairwise_descriptor (fun a b => a.2.2.1 ≤ b.2.2.1) 0 _
      ((hsort compFCFS strictWeakOrder_compFCFS ps).2.imp (fun {a b} h => by
        simp only [compFCFS, decide_eq_false_iff_not] at h
        simp only [Process.descriptor]; omega))
  refine ⟨hP, hP.chain', ?_⟩
  unfold SimulateFCFS
  rw [advanceClock_map_descriptor]
  exact (hsort compFCFS strictWeakOrder_compFCFS ps).1.map _

theorem fcfs_ascending_arrival_witness :
    StdSortSpec insertionStdSort ∧
    ((SimulateFCFS insertionStdSort staggeredPair).Pairwise
        (fun a b => a.arrivalTime ≤ b.arrivalTime) ∧
      (SimulateFCFS insertionStdSort staggeredPair).Chain'
        (fun a b => a.arrivalTime ≤ b.arrivalTime) ∧
      ((SimulateFCFS insertionStdSort staggeredPair).map Process.descriptor).Perm
        (staggeredPair.map Process.descriptor)) :=
  ⟨stdSortSpec_insertionStdSort,
    fcfs_ascending_arrival insertionStdSort stdSortSpec_insertionStdSort staggeredPair⟩

/-- Claim C6 fails as stated: with quantum 2 on P1(arrival 0, burst 5),
P2(arrival 0, burst 3) the list `SimulateRoundRobin` produces is P2:[6,7),
P1:[7,8); the durations attributed to P1 in it sum to 1, not to its burst 5. -/
theorem round_robin_returns_last_slices :
    (SimulateRoundRobin 2 5 roundRobinPair).map (fun s =>
        (s.readyQueue.map (fun p => (p.name, p.burstTime, p.startTime, p.endTime)),
          ((s.readyQueue.filter (fun p => decide (p.name = "P1"))).map
            (fun p => p.endTime - p.startTime)).sum))
      = some ([("P2", 3, 6, 7), ("P1", 5, 7, 8)], 1) := by
  decide

/-- Claim C6 as amended: when every process starts with remainingTime =
burstTime of type `int` and the quantum is positive, the lengths of the turns
the loop of `SimulateRoundRobin` grants a process (one per dequeue: the quantum,
or what remains) sum to that process's burstTime; when no clock addition of
the run overflowed, the durations stop - start of its slices sum to burstTime
too.  The list the routine produces holds exactly one entry per process,
carrying the last of that process's slices. -/
theorem round_robin_slices_sum_to_burst (ps : List Process)
    (hrem : ∀ p ∈ ps, p.remainingTime = p.burstTime) (hint : IntFields ps)
    (quantum : Int) (hq : 0 < quantum) :
    ∀ fuel, rrFuel ps ≤ fuel →
      ∃ s, SimulateRoundRobin quantum fuel ps = some s ∧
        (∀ i p, ps[i]? = some p →
          ((s.slices.filter (fun sl => decide (sl.proc = i))).map
            (fun sl => sl.length)).sum = p.burstTime) ∧
        (SlicesFit s → ∀ i p, ps[i]? = some p →
          ((s.slices.filter (fun sl => decide (sl.proc = i))).map
            (fun sl => sl.stop - sl.start)).sum = p.burstTime) ∧
        ((s.slices.filter (fun sl => sl.final)).map (fun sl => sl.proc)).Perm
          (List.range ps.length) ∧
        s.readyQueue.map (fun r => (some r.descriptor, r.startTime, r.endTime, r.remainingTime))
          = (s.slices.filter (fun sl => sl.final)).map
            (fun sl => ((ps[sl.proc]?).map Process.descriptor, sl.start, sl.stop, (0 : Int))) := by
  intro fuel hf
  obtain ⟨s, hs, hqueue, hinv⟩ := rr_run quantum hq ps fuel hf
  have hwork := rr_run_work quantum hq ps (fun p hp => (hint p hp).2.2) fuel s hs
  have hlen : ∀ i p, ps[i]? = some p →
      ((s.slices.filter (fun sl => decide (sl.proc = i))).map
        (fun sl => sl.length)).sum = p.burstTime := by
    intro i p hp
    rw [rr_length_sum hinv hwork hqueue i p hp]
    exact hrem p (List.getElem?_mem hp)
  refine ⟨s, hs, hlen, ?_, rrInv_final_slices hinv hqueue, hinv.recorded⟩
  intro hfit i p hp
  rw [rr_duration_eq_length hinv hfit i]
  exact hlen i p hp

theorem round_robin_slices_sum_to_burst_witness :
    (∀ p ∈ roundRobinPair, p.remainingTime = p.burstTime) ∧ IntFields roundRobinPair ∧
    (0 : Int) < 2 ∧
    ∃ s, SimulateRoundRobin 2 (rrFuel roundRobinPair) roundRobinPair = some s ∧
      SlicesFit s ∧
      (∀ i p, roundRobinPair[i]? = some p →
        ((s.slices.filter (fun sl => decide (sl.proc = i))).map
          (fun sl => sl.length)).sum = p.burstTime) ∧
      (∀ i p, roundRobinPair[i]? = some p →
        ((s.slices.filter (fun sl => decide (sl.proc = i))).map
          (fun sl => sl.stop - sl.start)).sum = p.burstTime) ∧
      ((s.slices.filter (fun sl => sl.final)).map (fun sl => sl.proc)).Perm
        (List.range roundRobinPair.length) ∧
      s.readyQueue.map (fun r => (some r.descriptor, r.startTime, r.endTime, r.remainingTime))
        = (s.slices.filter (fun sl => sl.final)).map
          (fun sl => ((roundRobinPair[sl.proc]?).map Process.descriptor, sl.start, sl.stop,
            (0 : Int))) := by
  obtain ⟨s, hs, h1, h2, h3, h4⟩ :=
    round_robin_slices_sum_to_burst roundRobinPair (by decide) (by decide) 2 (by decide)
      (rrFuel roundRobinPair) (le_refl _)
  have hfit : SlicesFit s :=
    slicesFit_of_check 2 (rrFuel roundRobinPair) roundRobinPair s hs (by decide)
  exact ⟨by decide, by decide, by decide, s, hs, hfit, h1, h2 hfit, h3, h4⟩

/-- Claim C7 fails as stated: with quantum 2147483647 on P1(arrival 0, burst
2147483647), P2(arrival 0, burst 2147483647) the end time of P2 overflows.
`SimulateRoundRobin` returns P1:[0,2147483647), P2:[2147483647,-2), while FCFS
by input order with end = start + burstTime ends P2 at 4294967294. -/
theorem round_robin_large_quantum_overflows :
    (∀ p ∈ overflowPair, p.remainingTime = p.burstTime ∧ p.burstTime ≤ 2147483647) ∧
    (SimulateRoundRobin 2147483647 2 overflowPair).map
        (fun s => s.readyQueue.map (fun p => (p.name, p.startTime, p.endTime)))
      = some [("P1", 0, 2147483647), ("P2", 2147483647, -2)] ∧
    (fcfsByInputOrder 0 overflowPair).map (fun p => (p.name, p.startTime, p.endTime))
      = [("P1", 0, 2147483647), ("P2", 2147483647, 4294967294)] := by
  decide

/-- Claim C7 as amended: when every process starts with remainingTime =
burstTime and the quantum is at least every burstTime, `SimulateRoundRobin`
gives each process exactly one slice, a finishing one, in input order (no
process is queued again), and its result is what the clock loop of
`SimulateFCFS` gives on the unsorted input; when no end time overflowed, that
is FCFS by input order: the processes in input order with start = max(clock,
arrivalTime) and end = start + burstTime. -/
theorem round_robin_large_quantum (ps : List Process) (quantum : Int)
    (h : ∀ p ∈ ps, p.remainingTime = p.burstTime ∧ p.burstTime ≤ quantum) :
    ∀ fuel, ps.length ≤ fuel →
      ∃ s, SimulateRoundRobin quantum fuel ps = some s ∧
        s.slices.map (fun sl => (sl.proc, sl.final))
          = (List.range ps.length).map (fun i => (i, true)) ∧
        s.readyQueue = (advanceClock 0 ps).map (fun p => { p with remainingTime := 0 }) ∧
        (EndsFit s.readyQueue →
          s.readyQueue
            = (fcfsByInputOrder 0 ps).map (fun p => { p with remainingTime := 0 })) := by
  intro fuel hf
  obtain ⟨s, hs, _, _, hready, hslices⟩ :=
    rr_single_run quantum ps (fun p hp => by have := h p hp; omega) fuel hf
  have heq := finishInTurn_eq 0 ps (fun p hp => (h p hp).1)
  refine ⟨s, hs, hslices, by rw [hready, heq], ?_⟩
  intro hfit
  rw [hready, heq] at hfit ⊢
  have hfit2 : EndsFit (advanceClock 0 ps) := by
    intro p hp
    exact hfit (Process.mk p.id p.name p.arrivalTime p.burstTime p.priority p.startTime
      p.endTime 0) (List.mem_map_of_mem (fun p => { p with remainingTime := 0 }) hp)
  rw [advanceClock_eq_exact 0 ps hfit2]

theorem round_robin_large_quantum_witness :
    (∀ p ∈ staggeredPair, p.remainingTime = p.burstTime ∧ p.burstTime ≤ 5) ∧
    ∃ s, SimulateRoundRobin 5 staggeredPair.length staggeredPair = some s ∧
      EndsFit s.readyQueue ∧
      s.slices.map (fun sl => (sl.proc, sl.final))
        = (List.range staggeredPair.length).map (fun i => (i, true)) ∧
      s.readyQueue
        = (advanceClock 0 staggeredPair).map (fun p => { p with remainingTime := 0 }) ∧
      s.readyQueue
        = (fcfsByInputOrder 0 staggeredPair).map (fun p => { p with remainingTime := 0 }) := by
  obtain ⟨s, hs, h1, h2, h3⟩ :=
    round_robin_large_quantum staggeredPair 5 (by decide) staggeredPair.length (le_refl _)
  have hfit : EndsFit s.readyQueue := by
    rw [h2]; decide
  exact ⟨by decide, s, hs, hfit, h1, h2, h3 hfit⟩

/-- Claim C8 at P1(arrival 0, burst 5), P2(arrival 0, burst 3), quantum 2: the
first run of `SimulateRoundRobin` returns P2:[6,7), P1:[7,8) and leaves both
remaining times at 0 instead of the burst times; the second run therefore
returns P1:[0,0), P2:[0,0). -/
theorem round_robin_second_run_differs :
    (SimulateRoundRobinTwice 2 5 roundRobinPair).map
        (fun runs => runs.1.readyQueue.map (fun p => (p.name, p.startTime, p.endTime)))
      = some [("P2", 6, 7), ("P1", 7, 8)] ∧
    (SimulateRoundRobinTwice 2 5 roundRobinPair).map
        (fun runs => runs.1.processes.map (fun p => (p.name, p.burstTime, p.remainingTime)))
      = some [("P1", 5, 0), ("P2", 3, 0)] ∧
    (SimulateRoundRobinTwice 2 5 roundRobinPair).map
        (fun runs => runs.2.readyQueue.map (fun p => (p.name, p.startTime, p.endTime)))
      = some [("P1", 0, 0), ("P2", 0, 0)] := by
  decide

/-- Claim C9 fails as stated: a quantum <= 0 is not rejected.  With quantum 0
and one process (arrival 3, burst 1) the first iteration of the loop is taken
and assigns startTime 3 to the process, which is queued again with its
remaining time still 1, and the loop never ends: no number of iterations
yields a result.  With quantum -1073741824 the same process is given three
turns, its remaining time growing until it wraps around, and the run returns
the interval [3,-2147483644). -/
theorem nonpositive_quantum_is_run :
    (rrStep 0 (rrInit lateSingle)).map (fun s =>
        (s.processes.map (fun p => (p.startTime, p.remainingTime)), s.processQueue,
          s.currentTime))
      = some ([(3, 1)], [0], 3) ∧
    (∀ fuel, SimulateRoundRobin 0 fuel lateSingle = none) ∧
    (SimulateRoundRobin (-1073741824) 3 lateSingle).map (fun s =>
        (s.readyQueue.map (fun p => (p.name, p.startTime, p.endTime)), s.slices.length))
      = some ([("P1", 3, -2147483644)], 3) :=
  ⟨by decide, fun fuel => rrLoop_stuck fuel _
    (stuck_init lateSingle ⟨newProcess 0 "P1" 3 1 0, by simp [lateSingle], by decide,
      by decide⟩), by decide⟩

/-- Claim C9 as amended: `SimulateRoundRobin` does not check its quantum and
has no error result.  For every quantum <= 0 and non-empty process list the
loop is entered and its first turn is taken; when every remainingTime is <=
quantum each process is finished in its first turn and one interval per process
is returned; and with quantum 0 and some process whose remainingTime is a
positive `int` the loop never ends, so nothing is returned. -/
theorem round_robin_nonpositive_quantum (ps : List Process) (quantum : Int)
    (hq : quantum ≤ 0) :
    (ps ≠ [] → ∃ s1, rrStep quantum (rrInit ps) = some s1 ∧ s1.slices.length = 1) ∧
      ((∀ p ∈ ps, p.remainingTime ≤ quantum) →
        ∀ fuel, ps.length ≤ fuel →
          ∃ s, SimulateRoundRobin quantum fuel ps = some s ∧
            s.readyQueue.length = ps.length ∧
            s.slices.map (fun sl => (sl.proc, sl.final))
              = (List.range ps.length).map (fun i => (i, true))) ∧
      (quantum = 0 → (∃ p ∈ ps, IsInt p.remainingTime ∧ p.remainingTime > 0) →
        ∀ fuel, SimulateRoundRobin quantum fuel ps = none) := by
  refine ⟨?_, ?_, ?_⟩
  · intro hne
    have hqueue : (rrInit ps).processQueue ≠ [] := by
      cases ps with
      | nil => exact absurd rfl hne
      | cons p rest => simp [rrInit, List.range_succ_eq_map]
    obtain ⟨s1, hs1⟩ := rrStep_isSome quantum (rrInit ps) (queueInBounds_init ps) hqueue
    refine ⟨s1, hs1, ?_⟩
    obtain ⟨i, rest, p, _, _, rfl⟩ := rrStep_eq_some.mp hs1
    by_cases hgt : p.remainingTime > quantum
    · rw [rrTurn_gt _ i rest hgt]; simp [rrInit]
    · rw [rrTurn_le _ i rest hgt]; simp [rrInit]
  · intro h fuel hf
    obtain ⟨s, hs, _, _, hready, hslices⟩ := rr_single_run quantum ps h fuel hf
    exact ⟨s, hs, by rw [hready, finishInTurn_length], hslices⟩
  · intro h0 h fuel
    subst h0
    exact rrLoop_stuck fuel _ (stuck_init ps h)

theorem round_robin_nonpositive_quantum_witness :
    (0 : Int) ≤ 0 ∧
    (∃ s1, rrStep 0 (rrInit lateSingle) = some s1 ∧ s1.slices.length = 1) ∧
    (∀ fuel, SimulateRoundRobin 0 fuel lateSingle = none) ∧
    (∀ p ∈ finishedPair, p.remainingTime ≤ 0) ∧
    ∃ s, SimulateRoundRobin 0 finishedPair.length finishedPair = some s ∧
      s.readyQueue.length = finishedPair.length ∧
      s.slices.map (fun sl => (sl.proc, sl.final))
        = (List.range finishedPair.length).map (fun i => (i, true)) :=
  ⟨by decide,
    (round_robin_nonpositive_quantum lateSingle 0 (by decide)).1 (by decide),
    (round_robin_nonpositive_quantum lateSingle 0 (by decide)).2.2 rfl
      ⟨newProcess 0 "P1" 3 1 0, by simp [lateSingle], by decide, by decide⟩,
    by decide,
    (round_robin_nonpositive_quantum finishedPair 0 (by decide)).2.1 (by decide)
      finishedPair.length (le_refl _)⟩

/-- Claim C10: for every process list and positive quantum the loop of
`SimulateRoundRobin` terminates (within `rrFuel` iterations).  When it is left
the queue is empty; the vector holds the processes of the input, each in its
place, with remainingTime = 0; every process has been recorded as complete
exactly once: the finishing turns are one per process, the list returned holds
the records of those turns, with remainingTime = 0, and is a permutation of the
vector.  Each dequeue of a process whose remainingTime is an `int` either
lowers it by exactly the quantum and queues the process again at the tail, or
sets it to 0, records the process and does not queue it again. -/
theorem round_robin_terminates (ps : List Process) (quantum : Int) (hq : 0 < quantum) :
    (∀ fuel, rrFuel ps ≤ fuel →
      ∃ s, SimulateRoundRobin quantum fuel ps = some s ∧ s.processQueue = [] ∧
        s.processes.map Process.descriptor = ps.map Process.descriptor ∧
        (∀ p ∈ s.processes, p.remainingTime = 0) ∧
        ((s.slices.filter (fun sl => sl.final)).map (fun sl => sl.proc)).Perm
          (List.range ps.length) ∧
        s.readyQueue.map (fun r => (some r.descriptor, r.startTime, r.endTime, r.remainingTime))
          = (s.slices.filter (fun sl => sl.final)).map
            (fun sl => ((ps[sl.proc]?).map Process.descriptor, sl.start, sl.stop, (0 : Int))) ∧
        s.readyQueue.Perm s.processes ∧
        (s.readyQueue.map Process.descriptor).Perm (ps.map Process.descriptor) ∧
        (∀ r ∈ s.readyQueue, r.remainingTime = 0)) ∧
    ∀ (s : RRState) (i : Nat) (rest : List Nat) (p : Process),
      s.processQueue = i :: rest → s.processes[i]? = some p → IsInt p.remainingTime →
      ∃ s1 p1, rrStep quantum s = some s1 ∧ s1.processes[i]? = some p1 ∧
        ((p.remainingTime > quantum ∧ p1.remainingTime = p.remainingTime - quantum ∧
            s1.processQueue = rest ++ [i] ∧ s1.readyQueue = s.readyQueue) ∨
          (p.remainingTime ≤ quantum ∧ p1.remainingTime = 0 ∧
            s1.processQueue = rest ∧ s1.readyQueue = s.readyQueue ++ [p1])) := by
  constructor
  · intro fuel hf
    obtain ⟨s, hs, hqueue, hinv⟩ := rr_run quantum hq ps fuel hf
    exact ⟨s, hs, hqueue, hinv.descr, rrInv_all_finished hinv hqueue,
      rrInv_final_slices hinv hqueue, hinv.recorded, rrInv_ready_perm_processes hinv hqueue,
      rrInv_ready_perm hinv hqueue, rrInv_ready_finished hinv⟩
  · intro s i rest p hqueue hp hpint
    have hi : i < s.processes.length := (List.getElem?_eq_some_iff.mp hp).1
    have hstep : rrStep quantum s = some (rrTurn quantum s i rest p) :=
      rrStep_eq_some.mpr ⟨i, rest, p, hqueue, hp, rfl⟩
    by_cases hgt : p.remainingTime > quantum
    · have hturn := rrTurn_gt s i rest hgt
      have hw : wrapInt (p.remainingTime - quantum) = p.remainingTime - quantum :=
        wrapInt_of_isInt (by unfold IsInt at hpint ⊢; omega)
      refine ⟨rrTurn quantum s i rest p,
        Process.mk p.id p.name p.arrivalTime p.burstTime p.priority
          (max s.currentTime p.arrivalTime) p.endTime (wrapInt (p.remainingTime - quantum)),
        hstep, ?_, Or.inl ⟨hgt, hw, ?_, ?_⟩⟩
      · rw [hturn]; exact List.getElem?_set_self hi
      · rw [hturn]
      · rw [hturn]
    · have hturn := rrTurn_le s i rest hgt
      refine ⟨rrTurn quantum s i rest p,
        Process.mk p.id p.name p.arrivalTime p.burstTime p.priority
          (max s.currentTime p.arrivalTime)
          (wrapInt (max s.currentTime p.arrivalTime + p.remainingTime)) 0,
        hstep, ?_, Or.inr ⟨by omega, rfl, ?_, ?_⟩⟩
      · rw [hturn]; exact List.getElem?_set_self hi
      · rw [hturn]
      · rw [hturn]

theorem round_robin_terminates_witness :
    (0 : Int) < 2 ∧
    (∀ fuel, rrFuel roundRobinPair ≤ fuel →
      ∃ s, SimulateRoundRobin 2 fuel roundRobinPair = some s ∧ s.processQueue = [] ∧
        s.processes.map Process.descriptor = roundRobinPair.map Process.descriptor ∧
        (∀ p ∈ s.processes, p.remainingTime = 0) ∧
        ((s.slices.filter (fun sl => sl.final)).map (fun sl => sl.proc)).Perm
          (List.range roundRobinPair.length) ∧
        s.readyQueue.map (fun r => (some r.descriptor, r.startTime, r.endTime, r.remainingTime))
          = (s.slices.filter (fun sl => sl.final)).map
            (fun sl => ((roundRobinPair[sl.proc]?).map Process.descriptor, sl.start, sl.stop,
              (0 : Int))) ∧
        s.readyQueue.Perm s.processes ∧
        (s.readyQueue.map Process.descriptor).Perm (roundRobinPair.map Process.descriptor) ∧
        (∀ r ∈ s.readyQueue, r.remainingTime = 0)) ∧
    ∃ s1 p1, rrStep 2 (rrInit roundRobinPair) = some s1 ∧ s1.processes[0]? = some p1 ∧
      ((newProcess 0 "P1" 0 5 0).remainingTime > 2 ∧
        p1.remainingTime = (newProcess 0 "P1" 0 5 0).remainingTime - 2 ∧
        s1.processQueue = [1] ++ [0] ∧ s1.readyQueue = (rrInit roundRobinPair).readyQueue ∨
      (newProcess 0 "P1" 0 5 0).remainingTime ≤ 2 ∧ p1.remainingTime = 0 ∧
        s1.processQueue = [1] ∧
        s1.readyQueue = (rrInit roundRobinPair).readyQueue ++ [p1]) :=
  ⟨by decide, (round_robin_terminates roundRobinPair 2 (by decide)).1,
    (round_robin_terminates roundRobinPair 2 (by decide)).2 (rrInit roundRobinPair) 0 [1]
      (newProcess 0 "P1" 0 5 0) (by decide) (by decide) (by decide)⟩

end CPUScheduler
